import Mathlib

/-!
Verification of the lyric-curation pipeline of the `lty_agent` repository.

The JavaScript sources are shallowly embedded over `List Char` (a JS string is
its list of Unicode scalar values).  Each definition carries a comment naming
the source function and lines it is translated from.  The repository contains
two variants of the ingestor / lyric cleaner:

  * `src/song/clean_lyrics.js`   — regex `\[\d{2}:\d{2}(:\d{2})?\.\d{2,3}?\]`
  * `src/song/index.js` (first variant, lines 57-68) and
    `src/dataset/song/clean_existing_lyrics.js` — regex
    `\[\d{2}:\d{2}(\.\d{2,3})?\]`

both embedded below.
-/

namespace LtyAgent

/-! ## Basic character classes and string utilities -/

/-- Digit test, the semantics of `\d` in the JS regexes. -/
def isDigit (c : Char) : Bool := '0' ≤ c && c ≤ '9'

/-- Whitespace class used by `String.prototype.trim`.  We model the common
whitespace code points (space, tab, LF, CR, VT, FF); the remaining Unicode
whitespace code points never occur in the data handled here. -/
def isWs (c : Char) : Bool :=
  c = ' ' || c = '\t' || c = '\n' || c = '\x0d' || c = '\x0b' || c = '\x0c'

/-- Line-terminator class: the code points NOT matched by `.` in a JS regex
(LF, CR, LINE SEPARATOR, PARAGRAPH SEPARATOR). -/
def isLB (c : Char) : Bool :=
  c = '\n' || c = '\x0d' || c = Char.ofNat 8232 || c = Char.ofNat 8233

/-- Drop trailing characters satisfying `p` (right-hand half of `trim`). -/
def dropTrail (p : Char → Bool) (l : List Char) : List Char :=
  (l.reverse.dropWhile p).reverse

/-- Model of `String.prototype.trim`. -/
def trim (l : List Char) : List Char :=
  dropTrail isWs (l.dropWhile isWs)

/-- Model of `String.prototype.split('\n')`. -/
def splitNl : List Char → List (List Char)
  | [] => [[]]
  | c :: r =>
    if c = '\n' then [] :: splitNl r
    else
      match splitNl r with
      | [] => [[c]]
      | x :: xs => (c :: x) :: xs

/-- Model of `Array.prototype.join('\n')`. -/
def joinNl : List (List Char) → List Char
  | [] => []
  | [l] => l
  | l :: ls => l ++ '\n' :: joinNl ls

/-- Model of `String.prototype.includes(pat)`: `pat` occurs as a contiguous
substring. -/
def containsSub (pat l : List Char) : Bool :=
  match l with
  | [] => pat.isPrefixOf []
  | _ :: r => pat.isPrefixOf l || containsSub pat r

/-! ## TitleNormalizer — `cleanSongTitle`, `src/song/index.js` lines 19-22

`title.replace(/\(.*?\)|（.*?）/g, '').trim()`.

`sweepTo close l` models the regex engine consuming `.*?close` after an
opening bracket: it succeeds (returning the suffix after the first `close`)
unless a line terminator or the end of input is reached first (`.` does not
match line terminators). -/

def sweepTo (close : Char) : List Char → Option (List Char)
  | [] => none
  | c :: r => if c = close then some r else if isLB c then none else sweepTo close r

theorem sweepTo_length {close : Char} : ∀ {l r : List Char},
    sweepTo close l = some r → r.length ≤ l.length := by
  intro l
  induction l with
  | nil => intro r h; simp [sweepTo] at h
  | cons c cs ih =>
    intro r h
    simp only [sweepTo] at h
    split at h
    · cases h; simp
    · split at h
      · cases h
      · exact Nat.le_trans (ih h) (Nat.le_succ _)

/-- The scan of the global regex replace `/\(.*?\)|（.*?）/g → ''`, with an
explicit fuel argument (structural recursion, so that the kernel can
evaluate it): at an ASCII or full-width opening bracket whose closer occurs
before any line terminator, delete through the closer and continue after it;
otherwise keep the character.  Each step consumes at least one character, so
a fuel of the input length (as supplied by `stripBrackets`) never runs out. -/
def stripBracketsGo : Nat → List Char → List Char
  | _, [] => []
  | 0, l => l
  | n + 1, c :: r =>
    if c = '(' then
      match sweepTo ')' r with
      | some r2 => stripBracketsGo n r2
      | none => c :: stripBracketsGo n r
    else if c = '（' then
      match sweepTo '）' r with
      | some r2 => stripBracketsGo n r2
      | none => c :: stripBracketsGo n r
    else c :: stripBracketsGo n r

/-- The global regex replace of `cleanSongTitle` (src/song/index.js line 21). -/
def stripBrackets (l : List Char) : List Char :=
  stripBracketsGo l.length l

theorem stripBracketsGo_nil : ∀ n, stripBracketsGo n [] = []
  | 0 => rfl
  | _ + 1 => rfl

theorem stripBracketsGo_irrel : ∀ (n m : Nat) (l : List Char),
    l.length ≤ n → l.length ≤ m → stripBracketsGo n l = stripBracketsGo m l := by
  intro n
  induction n with
  | zero =>
    intro m l hn hm
    have : l = [] := List.length_eq_zero.mp (Nat.le_zero.mp hn)
    subst this
    rw [stripBracketsGo_nil, stripBracketsGo_nil]
  | succ n ih =>
    intro m l hn hm
    cases l with
    | nil => rw [stripBracketsGo_nil, stripBracketsGo_nil]
    | cons c r =>
      cases m with
      | zero => simp at hm
      | succ m' =>
        simp only [List.length_cons, Nat.succ_le_succ_iff] at hn hm
        simp only [stripBracketsGo]
        by_cases hc : c = '('
        · rw [if_pos hc, if_pos hc]
          rcases hsw : sweepTo ')' r with _ | r2
          · rw [ih m' r hn hm]
          · exact ih m' r2 (Nat.le_trans (sweepTo_length hsw) hn)
              (Nat.le_trans (sweepTo_length hsw) hm)
        · rw [if_neg hc, if_neg hc]
          by_cases hc2 : c = '（'
          · rw [if_pos hc2, if_pos hc2]
            rcases hsw : sweepTo '）' r with _ | r2
            · rw [ih m' r hn hm]
            · exact ih m' r2 (Nat.le_trans (sweepTo_length hsw) hn)
                (Nat.le_trans (sweepTo_length hsw) hm)
          · rw [if_neg hc2, if_neg hc2, ih m' r hn hm]

/-- `cleanSongTitle` (src/song/index.js lines 19-22), the TitleNormalizer's
`normalize`. -/
def cleanSongTitle (l : List Char) : List Char :=
  trim (stripBrackets l)

/-! ## LyricsCleaner — the two `cleanLyrics` variants

`fracThenRB` models `\.\d{2,3}\]` at the current position (after the digits a
`]` must follow).  The lazy quantifier of `clean_lyrics.js` and the greedy
quantifier of `index.js` agree here, because after two digits the cases
"next char is `]`" (take 2) and "next char is a digit followed by `]`"
(take 3) are mutually exclusive. -/

def fracThenRB : List Char → Option (List Char)
  | g :: h :: rest =>
    if isDigit g && isDigit h then
      match rest with
      | x :: rest2 =>
        if x = ']' then some rest2
        else if isDigit x then
          match rest2 with
          | y :: r3 => if y = ']' then some r3 else none
          | [] => none
        else none
      | [] => none
    else none
  | _ => none

/-- Match for `\.` followed by `fracThenRB`. -/
def dotFrac : List Char → Option (List Char)
  | c :: r => if c = '.' then fracThenRB r else none
  | [] => none

/-- Body (after the `[`) of `clean_lyrics.js`'s regex
`\[\d{2}:\d{2}(:\d{2})?\.\d{2,3}?\]` (src/song/clean_lyrics.js line 19; the
identical regex also appears in the second ingestor variant).  The optional
group `(:\d{2})?` is greedy: the engine first tries to take it and backtracks
to the group-less alternative if the rest of the pattern then fails. -/
def tagBodyCL (l : List Char) : Option (List Char) :=
  match l with
  | a :: b :: k :: c :: d :: rest =>
    if isDigit a && isDigit b && k = ':' && isDigit c && isDigit d then
      match rest with
      | e :: f :: g :: rest2 =>
        if e = ':' && isDigit f && isDigit g then
          (dotFrac rest2).orElse (fun _ => dotFrac rest)
        else dotFrac rest
      | _ => dotFrac rest
    else none
  | _ => none

/-- Body (after the `[`) of `index.js`'s regex `\[\d{2}:\d{2}(\.\d{2,3})?\]`
(src/song/index.js line 62; src/dataset/song/clean_existing_lyrics.js
line 18).  The fraction group is optional; without it a `]` must follow. -/
def tagBodyIX (l : List Char) : Option (List Char) :=
  match l with
  | a :: b :: k :: c :: d :: rest =>
    if isDigit a && isDigit b && k = ':' && isDigit c && isDigit d then
      (dotFrac rest).orElse (fun _ =>
        match rest with
        | x :: r2 => if x = ']' then some r2 else none
        | [] => none)
    else none
  | _ => none

/-- Attempt to match the `clean_lyrics.js` timing-tag regex at the head of the
input; on success return the suffix after the match. -/
def tryTagCL (l : List Char) : Option (List Char) :=
  match l with
  | c :: r => if c = '[' then tagBodyCL r else none
  | [] => none

/-- Attempt to match the `index.js` timing-tag regex at the head of the
input; on success return the suffix after the match. -/
def tryTagIX (l : List Char) : Option (List Char) :=
  match l with
  | c :: r => if c = '[' then tagBodyIX r else none
  | [] => none

theorem fracThenRB_length : ∀ {l r : List Char},
    fracThenRB l = some r → r.length < l.length := by
  intro l r h
  unfold fracThenRB at h
  repeat' split at h
  all_goals (cases h <;> (simp; omega))

theorem dotFrac_length : ∀ {l r : List Char},
    dotFrac l = some r → r.length < l.length := by
  intro l r h
  unfold dotFrac at h
  split at h
  · split at h
    · exact Nat.lt_trans (fracThenRB_length h) (Nat.lt_succ_self _)
    · cases h
  · cases h

theorem tagBodyCL_length : ∀ {l r : List Char},
    tagBodyCL l = some r → r.length < l.length := by
  intro l r h
  unfold tagBodyCL at h
  split at h
  · rename_i a b k c d rest
    split at h
    · split at h
      · rename_i e f g rest2
        split at h
        · rcases ho : dotFrac rest2 with _ | r2 <;> rw [ho] at h
          · simp only [Option.orElse] at h
            have := dotFrac_length h
            simp at this ⊢; omega
          · simp only [Option.orElse] at h
            cases h
            have := dotFrac_length ho
            simp at this ⊢; omega
        · have := dotFrac_length h
          simp at this ⊢; omega
      · have := dotFrac_length h
        simp at this ⊢; omega
    · cases h
  · cases h

theorem tagBodyIX_length : ∀ {l r : List Char},
    tagBodyIX l = some r → r.length < l.length := by
  intro l r h
  unfold tagBodyIX at h
  split at h
  · rename_i a b k c d rest
    split at h
    · rcases ho : dotFrac rest with _ | r2 <;> rw [ho] at h
      · simp only [Option.orElse] at h
        split at h
        · split at h
          · cases h; simp; omega
          · cases h
        · cases h
      · simp only [Option.orElse] at h
        cases h
        have := dotFrac_length ho
        simp at this ⊢; omega
    · cases h
  · cases h

theorem tryTagCL_length : ∀ {l r : List Char},
    tryTagCL l = some r → r.length < l.length := by
  intro l r h
  unfold tryTagCL at h
  split at h
  · split at h
    · exact Nat.lt_trans (tagBodyCL_length h) (Nat.lt_succ_self _)
    · cases h
  · cases h

theorem tryTagIX_length : ∀ {l r : List Char},
    tryTagIX l = some r → r.length < l.length := by
  intro l r h
  unfold tryTagIX at h
  split at h
  · split at h
    · exact Nat.lt_trans (tagBodyIX_length h) (Nat.lt_succ_self _)
    · cases h
  · cases h

/-- The scan of the global replace of the `clean_lyrics.js` timing-tag regex
by the empty string — the left-to-right non-overlapping scan of
`String.replace(/…/g, '')` — written with an explicit fuel argument
(structural recursion, so that the kernel can evaluate it).  Each step
consumes at least one character, so a fuel of the input length (as supplied
by `stripCL`) never runs out. -/
def stripCLGo : Nat → List Char → List Char
  | _, [] => []
  | 0, l => l
  | n + 1, c :: r =>
    match tryTagCL (c :: r) with
    | some rest => stripCLGo n rest
    | none => c :: stripCLGo n r

def stripCL (l : List Char) : List Char := stripCLGo l.length l

/-- The analogous scan for the `index.js` timing-tag regex. -/
def stripIXGo : Nat → List Char → List Char
  | _, [] => []
  | 0, l => l
  | n + 1, c :: r =>
    match tryTagIX (c :: r) with
    | some rest => stripIXGo n rest
    | none => c :: stripIXGo n r

def stripIX (l : List Char) : List Char := stripIXGo l.length l

theorem stripCLGo_nil : ∀ n, stripCLGo n [] = []
  | 0 => rfl
  | _ + 1 => rfl

theorem stripIXGo_nil : ∀ n, stripIXGo n [] = []
  | 0 => rfl
  | _ + 1 => rfl

theorem stripCLGo_irrel : ∀ (n m : Nat) (l : List Char),
    l.length ≤ n → l.length ≤ m → stripCLGo n l = stripCLGo m l := by
  intro n
  induction n with
  | zero =>
    intro m l hn hm
    have : l = [] := List.length_eq_zero.mp (Nat.le_zero.mp hn)
    subst this
    rw [stripCLGo_nil, stripCLGo_nil]
  | succ n ih =>
    intro m l hn hm
    cases l with
    | nil => rw [stripCLGo_nil, stripCLGo_nil]
    | cons c r =>
      cases m with
      | zero => simp at hm
      | succ m' =>
        simp only [List.length_cons, Nat.succ_le_succ_iff] at hn hm
        simp only [stripCLGo]
        rcases htag : tryTagCL (c :: r) with _ | rest
        · rw [ih m' r hn hm]
        · have hlen := tryTagCL_length htag
          simp only [List.length_cons] at hlen
          exact ih m' rest (by omega) (by omega)

theorem stripIXGo_irrel : ∀ (n m : Nat) (l : List Char),
    l.length ≤ n → l.length ≤ m → stripIXGo n l = stripIXGo m l := by
  intro n
  induction n with
  | zero =>
    intro m l hn hm
    have : l = [] := List.length_eq_zero.mp (Nat.le_zero.mp hn)
    subst this
    rw [stripIXGo_nil, stripIXGo_nil]
  | succ n ih =>
    intro m l hn hm
    cases l with
    | nil => rw [stripIXGo_nil, stripIXGo_nil]
    | cons c r =>
      cases m with
      | zero => simp at hm
      | succ m' =>
        simp only [List.length_cons, Nat.succ_le_succ_iff] at hn hm
        simp only [stripIXGo]
        rcases htag : tryTagIX (c :: r) with _ | rest
        · rw [ih m' r hn hm]
        · have hlen := tryTagIX_length htag
          simp only [List.length_cons] at hlen
          exact ih m' rest (by omega) (by omega)

/-- Steps 2 of the cleaner in `clean_lyrics.js` (lines 22-26):
`split('\n').map(trim).filter(nonempty).join('\n')`. -/
def splitTrimJoin (l : List Char) : List Char :=
  joinNl (((splitNl l).map trim).filter (fun x => x ≠ []))

/-- `cleanLyrics` of src/song/clean_lyrics.js (lines 15-27). -/
def cleanLyricsCL (l : List Char) : List Char :=
  splitTrimJoin (stripCL l)

/-- Model of the global replace `/\n{3,}/g → '\n\n'`: a (maximal) run of
three or more newlines collapses to exactly two. -/
def collapseNlGo : Nat → List Char → List Char
  | 0, l => l
  | n + 1, a :: b :: c :: r =>
    if a = '\n' && b = '\n' && c = '\n' then
      '\n' :: '\n' :: collapseNlGo n (r.dropWhile (fun x => x = '\n'))
    else a :: collapseNlGo n (b :: c :: r)
  | _ + 1, l => l

def collapseNl (l : List Char) : List Char := collapseNlGo l.length l

theorem collapseNlGo_short : ∀ (n : Nat) (l : List Char), l.length ≤ 2 →
    collapseNlGo n l = l := by
  intro n l hl
  cases n with
  | zero => rfl
  | succ n =>
    match l, hl with
    | [], _ => rfl
    | [a], _ => rfl
    | [a, b], _ => rfl

theorem collapseNlGo_irrel : ∀ (n m : Nat) (l : List Char),
    l.length ≤ n → l.length ≤ m → collapseNlGo n l = collapseNlGo m l := by
  intro n
  induction n with
  | zero =>
    intro m l hn hm
    have : l = [] := List.length_eq_zero.mp (Nat.le_zero.mp hn)
    subst this
    rw [collapseNlGo_short, collapseNlGo_short] <;> simp
  | succ n ih =>
    intro m l hn hm
    match l, hn, hm with
    | [], _, _ => rw [collapseNlGo_short, collapseNlGo_short] <;> simp
    | [a], _, _ => rw [collapseNlGo_short, collapseNlGo_short] <;> simp
    | [a, b], _, _ => rw [collapseNlGo_short, collapseNlGo_short] <;> simp
    | a :: b :: c :: r, hn, hm =>
      cases m with
      | zero => simp at hm
      | succ m' =>
        simp only [List.length_cons, Nat.succ_le_succ_iff] at hn hm
        simp only [collapseNlGo]
        by_cases hnl : (a = '\n' && b = '\n' && c = '\n') = true
        · simp only [hnl, if_pos]
          have hd : (r.dropWhile (fun x => x = '\n')).length ≤ r.length :=
            (List.dropWhile_sublist _).length_le
          rw [ih m' (r.dropWhile (fun x => x = '\n')) (by omega) (by omega)]
        · simp only [hnl, if_neg, Bool.not_eq_true]
          rw [ih m' (b :: c :: r) (by simp; omega) (by simp; omega)]

/-- `cleanLyrics` of src/song/index.js (first variant, lines 57-68), also the
`cleanLyrics` of src/dataset/song/clean_existing_lyrics.js (lines 13-24):
strip tags, trim, collapse runs of blank lines. -/
def cleanLyricsIX (l : List Char) : List Char :=
  collapseNl (trim (stripIX l))

/-! ## Producer-list normalization (C4)

`JVal` models the JSON value shapes the `p_masters` / `artist` fields take in
this code base: strings, (possibly nested) arrays, and null. -/

inductive JVal where
  | str (s : List Char)
  | arr (l : List JVal)
  | jnull

/-- `Array.prototype.flat()` with its default depth of 1. -/
def flatOne (l : List JVal) : List JVal :=
  l.flatMap (fun v => match v with | .arr m => m | x => [x])

/-- `typeof item === 'string'` as a partial projection. -/
def strOf : JVal → Option (List Char)
  | .str s => some s
  | _ => none

/-- `cleanP_masters` (src/dataset/song/clean_existing_lyrics.js lines 27-44).
The input is `Option JVal`: `none` models an absent (`undefined`) field.
Arrays are flattened one level and non-strings dropped; a string (even the
empty one, since the `typeof` test precedes the truthiness test) is wrapped;
everything else yields `[]`. -/
def cleanP_masters : Option JVal → List (List Char)
  | some (.arr l) => (flatOne l).filterMap strOf
  | some (.str s) => [s]
  | some .jnull => []
  | none => []

/-- The `p_masters` normalization at the ingestion boundary
(`getSongLyric`, src/song/index.js lines 81-91).  Unlike `cleanP_masters`,
the truthiness test `if (song.artist)` comes first, so an empty string maps
to `[]`. -/
def ingestPMasters : Option JVal → List (List Char)
  | some (.arr l) => (flatOne l).filterMap strOf
  | some (.str s) => if s = [] then [] else [s]
  | some .jnull => []
  | none => []

/-- The string leaves of a JSON value, to depth 2 (direct strings, and
strings directly inside a nested array): the reference formulation for the
flat/ordered characterization of the producer lists. -/
def leafStrs : JVal → List (List Char)
  | .str s => [s]
  | .arr m => m.filterMap strOf
  | .jnull => []

/-! ## Sentinel strings and the per-line filter of `clean_lyrics.js` (C6) -/

def notFoundStr : List Char := "未找到歌词".toList

def fetchFailStr : List Char := "获取歌词失败".toList

def instrumentalStr : List Char := "纯音乐，请欣赏".toList

/-- A parsed line of the input store, as far as `processJsonlFile` looks at
it.  `lyrics = none` models an absent field. -/
structure RawSong where
  song_title : List Char
  p_masters : List (List Char)
  lyrics : Option (List Char)
deriving DecidableEq

/-- A persisted song record: the exact three fields written by the ingestors
and by `processJsonlFile`. -/
structure Record where
  song_title : List Char
  p_masters : List (List Char)
  lyrics : List Char
deriving DecidableEq

/-- The per-line body of `processJsonlFile` (src/song/clean_lyrics.js lines
42-72).  An absent or empty `lyrics` field makes line 46's
`songData.get('lyrics', '')` throw a TypeError, which the per-line catch
turns into a skip; the result is `none` either way.  Then the sentinel
checks of lines 49 and 57 and the tag-stripping of line 54. -/
def processSong (d : RawSong) : Option Record :=
  match d.lyrics with
  | none => none
  | some l =>
    if l = [] then none
    else if l = notFoundStr || containsSub fetchFailStr l || l = instrumentalStr then none
    else
      let cl := cleanLyricsCL l
      if trim cl = [] || containsSub instrumentalStr cl then none
      else
        some ⟨d.song_title, (match d.p_masters with | x :: _ => [x] | [] => []), cl⟩

/-- The whole-file pass of `processJsonlFile`: lines that are rejected
contribute nothing to the output. -/
def processFile (ds : List RawSong) : List Record :=
  ds.filterMap processSong

/-! ## MetadataExtractor (C7)

Modelled from the spec: the MetadataExtractor component (spec §4.3) has no
implementation under src/; its contract is: a line is a credit line when it
begins with one of the nine fixed role names, followed by a half-width or
full-width colon with optional surrounding whitespace, and the rest of the
line is the credited name; credit lines are removed and recorded last-wins,
all other lines stay in order. -/

def roleNames : List (List Char) :=
  ["作词".toList, "作曲".toList, "编曲".toList, "制作人".toList, "混音".toList,
   "母带".toList, "美工".toList, "配唱制作人".toList, "监制".toList]

/-- Modelled from the spec: recognize a credit line, returning its role and
credited name. -/
def creditOf (line : List Char) : Option ((List Char) × (List Char)) :=
  roleNames.findSome? (fun ro =>
    if ro.isPrefixOf line then
      match (line.drop ro.length).dropWhile isWs with
      | c :: nm => if c = ':' || c = '：' then some (ro, trim nm) else none
      | [] => none
    else none)

/-- Insert a role/name pair into the metadata map, overwriting the value of
an already-present role (last occurrence wins). -/
def upsert (m : List ((List Char) × (List Char))) (ro nm : List Char) :
    List ((List Char) × (List Char)) :=
  if m.any (fun p => p.1 = ro) then
    m.map (fun p => if p.1 = ro then (ro, nm) else p)
  else m ++ [(ro, nm)]

/-- Property read on the metadata map: the value of the first entry whose key
matches (keys are unique by construction of `upsert`). -/
def mapLookup (m : List ((List Char) × (List Char))) (ro : List Char) :
    Option (List Char) :=
  match m with
  | [] => none
  | kv :: m' => if kv.1 = ro then some kv.2 else mapLookup m' ro

/-- Modelled from the spec: `extract` scans the line sequence once, removing
credit lines into the metadata map and keeping all other lines in order. -/
def extract (lines : List (List Char)) :
    (List (List Char)) × (List ((List Char) × (List Char))) :=
  lines.foldl (fun acc line =>
    match creditOf line with
    | some p => (acc.1, upsert acc.2 p.1 p.2)
    | none => (acc.1 ++ [line], acc.2)) ([], [])

/-- The last credited name for a role in a line sequence (reference
formulation for the last-occurrence-wins property). -/
def lastCredit (lines : List (List Char)) (ro : List Char) : Option (List Char) :=
  (((lines.filterMap creditOf).filter (fun p => p.1 = ro)).getLast?).map Prod.snd

/-! ## IncrementalStore — persisted JSONL format (C8, C9)

The serializer mirrors `JSON.stringify(record, null, 0)` for the three-field
records this code writes, and the parser mirrors the subset of `JSON.parse`
needed to read them back. -/

def hexDig (n : Nat) : Char :=
  if n < 10 then Char.ofNat (48 + n) else Char.ofNat (87 + n)

def isHex (c : Char) : Bool :=
  isDigit c || ('a' ≤ c && c ≤ 'f') || ('A' ≤ c && c ≤ 'F')

def hexVal (c : Char) : Nat :=
  if isDigit c then c.toNat - 48
  else if 'a' ≤ c && c ≤ 'f' then c.toNat - 87
  else c.toNat - 55

/-- The string escaping of `JSON.stringify`. -/
def escChar (c : Char) : List Char :=
  if c = '"' then ['\\', '"']
  else if c = '\\' then ['\\', '\\']
  else if c = '\n' then ['\\', 'n']
  else if c = '\x0d' then ['\\', 'r']
  else if c = '\t' then ['\\', 't']
  else if c = '\x08' then ['\\', 'b']
  else if c = '\x0c' then ['\\', 'f']
  else if c.toNat < 32 then
    ['\\', 'u', '0', '0', hexDig (c.toNat / 16), hexDig (c.toNat % 16)]
  else [c]

def escChars (s : List Char) : List Char := s.flatMap escChar

/-- A JSON string literal: quote, escaped content, quote. -/
def qstr (s : List Char) : List Char := '"' :: (escChars s ++ ['"'])

/-- `Array.prototype.join(',')` at the level of already-serialized items. -/
def itemsJoin : List (List Char) → List Char
  | [] => []
  | [x] => x
  | x :: xs => x ++ ',' :: itemsJoin xs

def serLit1 : List Char := "\"song_title\":\"".toList

def serLit2 : List Char := "\",\"p_masters\":[".toList

def serLit3 : List Char := "],\"lyrics\":\"".toList

/-- `JSON.stringify(record, null, 0)` for a three-field record, with the
field order used by the writers in this repository. -/
def serializeRecord (r : Record) : List Char :=
  '\x7b' :: (serLit1 ++ escChars r.song_title ++ serLit2 ++
    itemsJoin (r.p_masters.map qstr) ++ serLit3 ++ escChars r.lyrics ++
    ['"']) ++ ['\x7d']

/-- Decode one JSON escape character (`JSON.parse` semantics). -/
def unescChar (c : Char) : Option Char :=
  if c = '"' then some '"'
  else if c = '\\' then some '\\'
  else if c = '/' then some '/'
  else if c = 'n' then some '\n'
  else if c = 'r' then some '\x0d'
  else if c = 't' then some '\t'
  else if c = 'b' then some '\x08'
  else if c = 'f' then some '\x0c'
  else none

/-- Parse a JSON string body (after the opening quote): returns the decoded
string and the input remaining after the closing quote. -/
def pString : List Char → Option ((List Char) × (List Char))
  | [] => none
  | c :: r =>
    if c = '"' then some ([], r)
    else if c = '\\' then
      match r with
      | [] => none
      | e :: r2 =>
        if e = 'u' then
          match r2 with
          | h1 :: h2 :: h3 :: h4 :: r3 =>
            if isHex h1 && isHex h2 && isHex h3 && isHex h4 then
              match pString r3 with
              | some (s, r4) =>
                some (Char.ofNat (((hexVal h1 * 16 + hexVal h2) * 16 + hexVal h3) * 16 +
                  hexVal h4) :: s, r4)
              | none => none
            else none
          | _ => none
        else
          match unescChar e with
          | some u =>
            match pString r2 with
            | some (s, r4) => some (u :: s, r4)
            | none => none
          | none => none
    else
      match pString r with
      | some (s, r4) => some (c :: s, r4)
      | none => none

theorem pString_length : ∀ {l s r : List Char},
    pString l = some (s, r) → r.length < l.length := by
  intro l
  induction l using pString.induct <;> intro s r h <;>
    rw [pString.eq_def] at h <;> (try simp at h) <;> (try split at h) <;>
    (try simp_all) <;> (try omega)

/-- Parse the rest of a JSON string array after one item: a sequence of
`, "item"` followed by `]`. -/
def pStrRest : List Char → Option ((List (List Char)) × (List Char))
  | [] => none
  | c :: r =>
    if c = ']' then some ([], r)
    else if c = ',' then
      match r with
      | q :: r2 =>
        if q = '"' then
          match h : pString r2 with
          | some sr =>
            match pStrRest sr.2 with
            | some p => some (sr.1 :: p.1, p.2)
            | none => none
          | none => none
        else none
      | [] => none
    else none
termination_by l => l.length
decreasing_by
  · have := pString_length h
    simp at this ⊢; omega

/-- Parse a JSON array of strings after the opening `[`: either an immediate
`]` or one or more string items. -/
def pStrList : List Char → Option ((List (List Char)) × (List Char))
  | [] => none
  | c :: r =>
    if c = ']' then some ([], r)
    else if c = '"' then
      match pString r with
      | some sr =>
        match pStrRest sr.2 with
        | some p => some (sr.1 :: p.1, p.2)
        | none => none
      | none => none
    else none

/-- Expect an exact literal prefix; return the remaining input. -/
def parseLit : List Char → List Char → Option (List Char)
  | [], l => some l
  | _ :: _, [] => none
  | c :: pat, x :: l => if x = c then parseLit pat l else none

def parLit1 : List Char := "\x7b\"song_title\":\"".toList

def parLit2 : List Char := ",\"p_masters\":[".toList

def parLit3 : List Char := ",\"lyrics\":\"".toList

/-- The subset of `JSON.parse` that reads back one serialized record. -/
def parseRecord (l : List Char) : Option Record := do
  let r1 ← parseLit parLit1 l
  let (t, r2) ← pString r1
  let r3 ← parseLit parLit2 r2
  let (ps, r4) ← pStrList r3
  let r5 ← parseLit parLit3 r4
  let (ly, r6) ← pString r5
  let r7 ← parseLit ['\x7d'] r6
  if r7 = [] then some ⟨t, ps, ly⟩ else none

/-- The whole-store serialization of `rewriteAll`
(src/dataset/song/clean_existing_lyrics.js line 99):
`records.map(r => JSON.stringify(r, null, 0)).join('\n') + '\n'`. -/
def storeContent (rs : List Record) : List Char :=
  joinNl (rs.map serializeRecord) ++ ['\n']

/-- The load loop of `cleanExistingLyrics`
(src/dataset/song/clean_existing_lyrics.js lines 61-91): split on newlines,
keep lines with nonempty trim, JSON-parse each trimmed line; parse failures
are counted and skipped. -/
def loadAll (content : List Char) : (List Record) × Nat :=
  ((splitNl content).filter (fun l => trim l ≠ [])).foldl
    (fun acc l =>
      match parseRecord (trim l) with
      | some r => (acc.1 ++ [r], acc.2)
      | none => (acc.1, acc.2 + 1)) ([], 0)

/-! ## The batch rewrite's filesystem behaviour (C2) -/

inductive FPath where
  | store
  | temp
deriving DecidableEq

inductive FsOp where
  | write (p : FPath) (content : List Char)
  | rename (src dst : FPath)
deriving DecidableEq

/-- The filesystem operations performed by the write phase of
`cleanExistingLyrics` (src/dataset/song/clean_existing_lyrics.js lines
98-100): a single `fs.writeFileSync(LYRICS_FILE_PATH, outputContent)`
directly to the store file.  `TEMP_FILE_PATH` (line 11) is declared but
never used. -/
def rewriteAllOps (rs : List Record) : List FsOp :=
  [FsOp.write FPath.store (storeContent rs)]

/-- Visible contents of a file mid-way through a non-atomic in-place
`writeFileSync`: the file is truncated and the first `k` bytes of the new
contents have been written. -/
def midWrite (newContent : List Char) (k : Nat) : List Char :=
  newContent.take k

/-! ## Ingestor, first variant (C3, C10) —
`searchLuoTianyiSongs` (src/song/index.js lines 125-192)

A `Track` carries the external world's responses: `lyric` is the outcome of
`meting.lyric(song.id)` (`none` models a fetch failure or a response without
a lyric; `getSongLyric` catches the failure and returns null). -/

structure Track where
  name : List Char
  artist : Option JVal
  lyric : Option (List Char)

/-- `getSongLyric` (src/song/index.js lines 71-105): reject when the fetch
failed, the lyric is empty/blank, or it contains the instrumental sentinel;
otherwise build the record with the cleaned lyric and normalized artists. -/
def getSongLyricM (t : Track) : Option Record :=
  match t.lyric with
  | none => none
  | some ly =>
    if ly.isEmpty || (trim ly).isEmpty || containsSub instrumentalStr ly then none
    else some ⟨t.name, ingestPMasters t.artist, cleanLyricsIX ly⟩

/-- The dedup key of a track: `cleanSongTitle(song.name)`. -/
def keyT (t : Track) : List Char := cleanSongTitle t.name

/-- The dedup key of a persisted record. -/
def keyR (r : Record) : List Char := cleanSongTitle r.song_title

/-- One iteration of the per-song loop (src/song/index.js lines 162-181):
fetch the lyric, append the record if the cleaned lyric is nonempty
(`writeLyricToFile` skips records whose `lyrics` is falsy), and add the
track's key to the existing-songs set unconditionally. -/
def stepSong (acc : Finset (List Char) × List Track × List Record) (t : Track) :
    Finset (List Char) × List Track × List Record :=
  let app2 := match getSongLyricM t with
    | some r => if r.lyrics.isEmpty then acc.2.2 else acc.2.2 ++ [r]
    | none => acc.2.2
  (insert (keyT t) acc.1, acc.2.1 ++ [t], app2)

/-- One page (src/song/index.js lines 146-181): the new-song list is computed
once, against the existing-keys set as of the start of the page; each new
song is then fetched and processed.  Returns the updated key set, the tracks
fetched, and the records appended. -/
def processPage (ex : Finset (List Char)) (page : List Track) :
    Finset (List Char) × List Track × List Record :=
  (page.filter (fun t => decide (keyT t ∉ ex))).foldl stepSong (ex, [], [])

/-- The page loop of one ingestion run, collecting the per-page fetch and
append logs. -/
def runPages (ex : Finset (List Char)) :
    List (List Track) → Finset (List Char) × List (List Track) × List (List Record)
  | [] => (ex, [], [])
  | p :: ps =>
    let x := processPage ex p
    let y := runPages x.1 ps
    (y.1, x.2.1 :: y.2.1, x.2.2 :: y.2.2)

/-! ## Generic lemmas about `trim` -/

theorem dropTrail_eq_rdropWhile (p : Char → Bool) (l : List Char) :
    dropTrail p l = List.rdropWhile p l := rfl

theorem trim_prefix_fixed {p : Char → Bool} {m t : List Char}
    (hm : m.dropWhile p = m) (ht : t <+: m) : t.dropWhile p = t := by
  cases t with
  | nil => simp
  | cons a t' =>
    cases m with
    | nil => simp at ht
    | cons b m' =>
      obtain ⟨u, hu⟩ := ht
      have hab : a = b := by
        have := congrArg (fun l => l.head?) hu
        simpa using this
      subst hab
      have hpa : ¬ p a = true := by
        intro hp
        rw [List.dropWhile_cons_of_pos hp] at hm
        have hlen := congrArg List.length hm
        have hle : (List.dropWhile p m').length ≤ m'.length :=
          List.Sublist.length_le (List.dropWhile_sublist p)
        simp at hlen
        omega
      rw [List.dropWhile_cons_of_neg hpa]

theorem trim_idem (l : List Char) : trim (trim l) = trim l := by
  unfold trim
  rw [dropTrail_eq_rdropWhile, dropTrail_eq_rdropWhile]
  have h1 : (l.dropWhile isWs).dropWhile isWs = l.dropWhile isWs :=
    List.dropWhile_idempotent _ _
  have h2 : (List.rdropWhile isWs (l.dropWhile isWs)).dropWhile isWs =
      List.rdropWhile isWs (l.dropWhile isWs) :=
    trim_prefix_fixed h1 (List.rdropWhile_prefix _ _)
  rw [h2, List.rdropWhile_idempotent]

/-- `trim l` is a contiguous middle slice of `l`. -/
theorem trim_is_middle (l : List Char) : ∃ a b, l = a ++ trim l ++ b := by
  obtain ⟨b, hb⟩ := List.rdropWhile_prefix isWs (l.dropWhile isWs)
  refine ⟨l.takeWhile isWs, b, ?_⟩
  have h0 : l.takeWhile isWs ++ l.dropWhile isWs = l :=
    List.takeWhile_append_dropWhile isWs l
  have h1 : trim l ++ b = l.dropWhile isWs := by
    unfold trim; rw [dropTrail_eq_rdropWhile]; exact hb
  calc l = l.takeWhile isWs ++ l.dropWhile isWs := h0.symm
    _ = l.takeWhile isWs ++ (trim l ++ b) := by rw [h1]
    _ = l.takeWhile isWs ++ trim l ++ b := by rw [List.append_assoc]

/-! ## TitleNormalizer lemmas (C5) -/

/-- The invariant produced by `stripBrackets`: no remaining opening bracket is
followed, before a line terminator, by its closing bracket. -/
def Stripped (l : List Char) : Prop :=
  (∀ u v, l = u ++ '(' :: v → sweepTo ')' v = none) ∧
  (∀ u v, l = u ++ '（' :: v → sweepTo '）' v = none)

theorem sweepTo_none_cons {cl a : Char} {l : List Char} :
    sweepTo cl (a :: l) = none ↔
      a ≠ cl ∧ (isLB a = true ∨ sweepTo cl l = none) := by
  simp only [sweepTo]
  split
  · simp_all
  · split <;> simp_all

theorem sweepTo_none_prefix {cl : Char} : ∀ {v b : List Char},
    sweepTo cl (v ++ b) = none → sweepTo cl v = none := by
  intro v
  induction v with
  | nil => intro b _; rfl
  | cons a v' ih =>
    intro b h
    rw [List.cons_append, sweepTo_none_cons] at h
    rw [sweepTo_none_cons]
    rcases h with ⟨hne, hlb | hrec⟩
    · exact ⟨hne, Or.inl hlb⟩
    · exact ⟨hne, Or.inr (ih hrec)⟩

theorem sweepTo_some_decomp {cl : Char} : ∀ {r r2 : List Char},
    sweepTo cl r = some r2 →
    ∃ w, r = w ++ cl :: r2 ∧ ∀ c ∈ w, c ≠ cl ∧ isLB c = false := by
  intro r
  induction r with
  | nil => intro r2 h; simp [sweepTo] at h
  | cons a r' ih =>
    intro r2 h
    simp only [sweepTo] at h
    split at h
    · cases h
      rename_i hacl
      exact ⟨[], by simp [hacl]⟩
    · split at h
      · cases h
      · obtain ⟨w, hw, hwall⟩ := ih h
        rename_i hacl hlb
        refine ⟨a :: w, by simp [hw], ?_⟩
        intro c hc
        rcases List.mem_cons.mp hc with rfl | hc'
        · exact ⟨hacl, by simpa using hlb⟩
        · exact hwall c hc'

theorem sweepTo_none_through {cl : Char} : ∀ {w r' : List Char},
    (∀ c ∈ w, isLB c = false) → sweepTo cl (w ++ r') = none →
    sweepTo cl r' = none := by
  intro w
  induction w with
  | nil => intro r' _ h; simpa using h
  | cons a w' ih =>
    intro r' hlb h
    rw [List.cons_append, sweepTo_none_cons] at h
    rcases h with ⟨_, hlb' | hrec⟩
    · have := hlb a (by simp)
      simp [this] at hlb'
    · exact ih (fun c hc => hlb c (List.mem_cons_of_mem _ hc)) hrec

theorem stripBracketsGo_succ_open (n : Nat) (r : List Char) :
    stripBracketsGo (n + 1) ('(' :: r) =
      match sweepTo ')' r with
      | some r2 => stripBracketsGo n r2
      | none => '(' :: stripBracketsGo n r := by
  simp [stripBracketsGo]

theorem stripBracketsGo_succ_fw (n : Nat) (r : List Char) :
    stripBracketsGo (n + 1) ('（' :: r) =
      match sweepTo '）' r with
      | some r2 => stripBracketsGo n r2
      | none => '（' :: stripBracketsGo n r := by
  simp [stripBracketsGo]

theorem stripBracketsGo_succ_other {c : Char} (hc : ¬c = '(') (hc2 : ¬c = '（')
    (n : Nat) (r : List Char) :
    stripBracketsGo (n + 1) (c :: r) = c :: stripBracketsGo n r := by
  simp [stripBracketsGo, hc, hc2]

theorem stripBrackets_cons_open_some {r r2 : List Char}
    (hs : sweepTo ')' r = some r2) :
    stripBrackets ('(' :: r) = stripBrackets r2 := by
  show stripBracketsGo (r.length + 1) ('(' :: r) = stripBracketsGo r2.length r2
  rw [stripBracketsGo_succ_open, hs]
  exact stripBracketsGo_irrel r.length r2.length r2 (sweepTo_length hs) Nat.le.refl

theorem stripBrackets_cons_open_none {r : List Char}
    (hs : sweepTo ')' r = none) :
    stripBrackets ('(' :: r) = '(' :: stripBrackets r := by
  show stripBracketsGo (r.length + 1) ('(' :: r) = '(' :: stripBracketsGo r.length r
  rw [stripBracketsGo_succ_open, hs]

theorem stripBrackets_cons_fw_some {r r2 : List Char}
    (hs : sweepTo '）' r = some r2) :
    stripBrackets ('（' :: r) = stripBrackets r2 := by
  show stripBracketsGo (r.length + 1) ('（' :: r) = stripBracketsGo r2.length r2
  rw [stripBracketsGo_succ_fw, hs]
  exact stripBracketsGo_irrel r.length r2.length r2 (sweepTo_length hs) Nat.le.refl

theorem stripBrackets_cons_fw_none {r : List Char}
    (hs : sweepTo '）' r = none) :
    stripBrackets ('（' :: r) = '（' :: stripBrackets r := by
  show stripBracketsGo (r.length + 1) ('（' :: r) = '（' :: stripBracketsGo r.length r
  rw [stripBracketsGo_succ_fw, hs]

theorem stripBrackets_cons_other {c : Char} {r : List Char}
    (hc : ¬c = '(') (hc2 : ¬c = '（') :
    stripBrackets (c :: r) = c :: stripBrackets r := by
  show stripBracketsGo (r.length + 1) (c :: r) = c :: stripBracketsGo r.length r
  rw [stripBracketsGo_succ_other hc hc2]

theorem sweepTo_none_stripBracketsAux {cl : Char} : ∀ (n : Nat) (l : List Char),
    l.length ≤ n → sweepTo cl l = none → sweepTo cl (stripBrackets l) = none := by
  intro n
  induction n with
  | zero =>
    intro l hl h
    have : l = [] := List.length_eq_zero.mp (Nat.le_zero.mp hl)
    subst this
    exact h
  | succ n ih =>
    intro l hl h
    cases l with
    | nil => exact h
    | cons c r =>
      simp only [List.length_cons, Nat.succ_le_succ_iff] at hl
      rw [sweepTo_none_cons] at h
      obtain ⟨hccl, hor⟩ := h
      by_cases hc : c = '('
      · subst hc
        rcases hor with hlb | hrec
        · simp [isLB] at hlb
        · rcases hsw : sweepTo ')' r with _ | r2
          · rw [stripBrackets_cons_open_none hsw, sweepTo_none_cons]
            exact ⟨hccl, Or.inr (ih r hl hrec)⟩
          · rw [stripBrackets_cons_open_some hsw]
            by_cases hcl : cl = ')'
            · subst hcl; rw [hrec] at hsw; cases hsw
            · obtain ⟨w, hw, hwall⟩ := sweepTo_some_decomp hsw
              rw [hw] at hrec
              have hthrough : sweepTo cl (')' :: r2) = none :=
                sweepTo_none_through (fun c hc => (hwall c hc).2) hrec
              rw [sweepTo_none_cons] at hthrough
              rcases hthrough with ⟨_, hlb' | hrec'⟩
              · simp [isLB] at hlb'
              · exact ih r2 (Nat.le_trans (sweepTo_length hsw) hl) hrec'
      · by_cases hc2 : c = '（'
        · subst hc2
          rcases hor with hlb | hrec
          · simp [isLB] at hlb
          · rcases hsw : sweepTo '）' r with _ | r2
            · rw [stripBrackets_cons_fw_none hsw, sweepTo_none_cons]
              exact ⟨hccl, Or.inr (ih r hl hrec)⟩
            · rw [stripBrackets_cons_fw_some hsw]
              by_cases hcl : cl = '）'
              · subst hcl; rw [hrec] at hsw; cases hsw
              · obtain ⟨w, hw, hwall⟩ := sweepTo_some_decomp hsw
                rw [hw] at hrec
                have hthrough : sweepTo cl ('）' :: r2) = none :=
                  sweepTo_none_through (fun c hc => (hwall c hc).2) hrec
                rw [sweepTo_none_cons] at hthrough
                rcases hthrough with ⟨_, hlb' | hrec'⟩
                · simp [isLB] at hlb'
                · exact ih r2 (Nat.le_trans (sweepTo_length hsw) hl) hrec'
        · rw [stripBrackets_cons_other hc hc2, sweepTo_none_cons]
          refine ⟨hccl, ?_⟩
          rcases hor with hlb | hrec
          · exact Or.inl hlb
          · exact Or.inr (ih r hl hrec)

theorem sweepTo_none_stripBrackets {cl : Char} {l : List Char}
    (h : sweepTo cl l = none) : sweepTo cl (stripBrackets l) = none :=
  sweepTo_none_stripBracketsAux l.length l Nat.le.refl h

theorem Stripped_nil : Stripped [] := by
  constructor <;> (intro u v h; exact absurd h (by simp))

theorem Stripped_cons_of {c : Char} {l : List Char}
    (hl : Stripped l)
    (h1 : c = '(' → sweepTo ')' l = none)
    (h2 : c = '（' → sweepTo '）' l = none) :
    Stripped (c :: l) := by
  constructor
  · intro u v huv
    cases u with
    | nil =>
      simp at huv
      rcases huv with ⟨hc, hv⟩
      subst hc; subst hv
      exact h1 rfl
    | cons a u' =>
      simp at huv
      exact hl.1 u' v huv.2
  · intro u v huv
    cases u with
    | nil =>
      simp at huv
      rcases huv with ⟨hc, hv⟩
      subst hc; subst hv
      exact h2 rfl
    | cons a u' =>
      simp at huv
      exact hl.2 u' v huv.2

theorem Stripped_of_cons {c : Char} {l : List Char} (h : Stripped (c :: l)) :
    Stripped l := by
  constructor
  · intro u v huv
    exact h.1 (c :: u) v (by simp [huv])
  · intro u v huv
    exact h.2 (c :: u) v (by simp [huv])

theorem stripBrackets_StrippedAux : ∀ (n : Nat) (l : List Char), l.length ≤ n →
    Stripped (stripBrackets l) := by
  intro n
  induction n with
  | zero =>
    intro l hl
    have : l = [] := List.length_eq_zero.mp (Nat.le_zero.mp hl)
    subst this
    exact Stripped_nil
  | succ n ih =>
    intro l hl
    cases l with
    | nil => exact Stripped_nil
    | cons c r =>
      simp only [List.length_cons, Nat.succ_le_succ_iff] at hl
      by_cases hc : c = '('
      · subst hc
        rcases hsw : sweepTo ')' r with _ | r2
        · rw [stripBrackets_cons_open_none hsw]
          exact Stripped_cons_of (ih r hl)
            (fun _ => sweepTo_none_stripBrackets hsw)
            (fun hcc => absurd hcc (by decide))
        · rw [stripBrackets_cons_open_some hsw]
          exact ih r2 (Nat.le_trans (sweepTo_length hsw) hl)
      · by_cases hc2 : c = '（'
        · subst hc2
          rcases hsw : sweepTo '）' r with _ | r2
          · rw [stripBrackets_cons_fw_none hsw]
            exact Stripped_cons_of (ih r hl)
              (fun hcc => absurd hcc (by decide))
              (fun _ => sweepTo_none_stripBrackets hsw)
          · rw [stripBrackets_cons_fw_some hsw]
            exact ih r2 (Nat.le_trans (sweepTo_length hsw) hl)
        · rw [stripBrackets_cons_other hc hc2]
          exact Stripped_cons_of (ih r hl) (fun h => absurd h hc)
            (fun h => absurd h hc2)

theorem stripBrackets_Stripped (l : List Char) : Stripped (stripBrackets l) :=
  stripBrackets_StrippedAux l.length l Nat.le.refl

theorem stripBrackets_eq_self_of_Stripped : ∀ {l : List Char},
    Stripped l → stripBrackets l = l := by
  intro l
  induction l with
  | nil => intro _; simp [stripBrackets, stripBracketsGo_nil]
  | cons c r ih =>
    intro h
    by_cases hc : c = '('
    · subst hc
      have hs : sweepTo ')' r = none := h.1 [] r rfl
      rw [stripBrackets_cons_open_none hs, ih (Stripped_of_cons h)]
    · by_cases hc2 : c = '（'
      · subst hc2
        have hs : sweepTo '）' r = none := h.2 [] r rfl
        rw [stripBrackets_cons_fw_none hs, ih (Stripped_of_cons h)]
      · rw [stripBrackets_cons_other hc hc2, ih (Stripped_of_cons h)]

theorem Stripped_append_mid {a m b : List Char} (h : Stripped (a ++ m ++ b)) :
    Stripped m := by
  constructor
  · intro u v huv
    have : a ++ m ++ b = (a ++ u) ++ '(' :: (v ++ b) := by
      subst huv; simp
    exact sweepTo_none_prefix (h.1 (a ++ u) (v ++ b) this)
  · intro u v huv
    have : a ++ m ++ b = (a ++ u) ++ '（' :: (v ++ b) := by
      subst huv; simp
    exact sweepTo_none_prefix (h.2 (a ++ u) (v ++ b) this)

theorem Stripped_trim {l : List Char} (h : Stripped l) : Stripped (trim l) := by
  obtain ⟨a, b, hab⟩ := trim_is_middle l
  rw [hab] at h
  exact Stripped_append_mid h

theorem cleanSongTitle_idempotent (l : List Char) :
    cleanSongTitle (cleanSongTitle l) = cleanSongTitle l := by
  unfold cleanSongTitle
  rw [stripBrackets_eq_self_of_Stripped (Stripped_trim (stripBrackets_Stripped l)),
    trim_idem]

theorem stripBrackets_append_noopen : ∀ {u r : List Char},
    (∀ c ∈ u, c ≠ '(' ∧ c ≠ '（') →
    stripBrackets (u ++ r) = u ++ stripBrackets r := by
  intro u
  induction u with
  | nil => intro r _; rfl
  | cons a u' ih =>
    intro r hu
    have ha := hu a (by simp)
    rw [List.cons_append, stripBrackets_cons_other ha.1 ha.2,
      ih (fun c hc => hu c (List.mem_cons_of_mem _ hc))]
    simp

theorem sweepTo_through_pos {cl : Char} : ∀ {v w : List Char},
    (∀ c ∈ v, c ≠ cl ∧ isLB c = false) →
    sweepTo cl (v ++ cl :: w) = some w := by
  intro v
  induction v with
  | nil => intro w _; simp [sweepTo]
  | cons a v' ih =>
    intro w hv
    have ha := hv a (by simp)
    rw [List.cons_append]
    simp only [sweepTo, if_neg ha.1, ha.2]
    simp only [Bool.false_eq_true, if_false]
    exact ih (fun c hc => hv c (List.mem_cons_of_mem _ hc))

theorem stripBrackets_id_of_noopen : ∀ {w : List Char},
    (∀ c ∈ w, c ≠ '(' ∧ c ≠ '（') → stripBrackets w = w := by
  intro w
  induction w with
  | nil => intro _; simp [stripBrackets, stripBracketsGo_nil]
  | cons a w' ih =>
    intro hw
    have ha := hw a (by simp)
    rw [stripBrackets_cons_other ha.1 ha.2,
      ih (fun c hc => hw c (List.mem_cons_of_mem _ hc))]

theorem cleanSongTitle_drop_pair {u v w : List Char}
    (hu : ∀ c ∈ u, c ≠ '(' ∧ c ≠ '（')
    (hv : ∀ c ∈ v, c ≠ ')' ∧ isLB c = false)
    (hw : ∀ c ∈ w, c ≠ '(' ∧ c ≠ '（') :
    cleanSongTitle (u ++ '(' :: (v ++ ')' :: w)) = cleanSongTitle (u ++ w) := by
  unfold cleanSongTitle
  rw [stripBrackets_append_noopen hu,
    stripBrackets_cons_open_some (sweepTo_through_pos hv),
    stripBrackets_id_of_noopen hw,
    stripBrackets_append_noopen hu,
    stripBrackets_id_of_noopen hw]

theorem cleanSongTitle_drop_pair_fw {u v w : List Char}
    (hu : ∀ c ∈ u, c ≠ '(' ∧ c ≠ '（')
    (hv : ∀ c ∈ v, c ≠ '）' ∧ isLB c = false)
    (hw : ∀ c ∈ w, c ≠ '(' ∧ c ≠ '（') :
    cleanSongTitle (u ++ '（' :: (v ++ '）' :: w)) = cleanSongTitle (u ++ w) := by
  unfold cleanSongTitle
  rw [stripBrackets_append_noopen hu,
    stripBrackets_cons_fw_some (sweepTo_through_pos hv),
    stripBrackets_id_of_noopen hw,
    stripBrackets_append_noopen hu,
    stripBrackets_id_of_noopen hw]

/-! ## LyricsCleaner lemmas (C1) -/

/-- The timing-tag forms with a fractional part that `clean_lyrics.js`'s
regex matches (the forms named by the spec): `[mm:ss.ff]`, `[mm:ss.fff]`,
`[mm:ss:ss.ff]`. -/
inductive TagCL : List Char → Prop where
  | ff {m1 m2 s1 s2 f1 f2 : Char} :
      isDigit m1 = true → isDigit m2 = true → isDigit s1 = true →
      isDigit s2 = true → isDigit f1 = true → isDigit f2 = true →
      TagCL ['[', m1, m2, ':', s1, s2, '.', f1, f2, ']']
  | fff {m1 m2 s1 s2 f1 f2 f3 : Char} :
      isDigit m1 = true → isDigit m2 = true → isDigit s1 = true →
      isDigit s2 = true → isDigit f1 = true → isDigit f2 = true →
      isDigit f3 = true →
      TagCL ['[', m1, m2, ':', s1, s2, '.', f1, f2, f3, ']']
  | long {m1 m2 s1 s2 e1 e2 f1 f2 : Char} :
      isDigit m1 = true → isDigit m2 = true → isDigit s1 = true →
      isDigit s2 = true → isDigit e1 = true → isDigit e2 = true →
      isDigit f1 = true → isDigit f2 = true →
      TagCL ['[', m1, m2, ':', s1, s2, ':', e1, e2, '.', f1, f2, ']']

/-- The timing-tag forms that `index.js`'s regex matches: `[mm:ss]`,
`[mm:ss.ff]`, `[mm:ss.fff]`. -/
inductive TagIX : List Char → Prop where
  | plain {m1 m2 s1 s2 : Char} :
      isDigit m1 = true → isDigit m2 = true → isDigit s1 = true →
      isDigit s2 = true →
      TagIX ['[', m1, m2, ':', s1, s2, ']']
  | ff {m1 m2 s1 s2 f1 f2 : Char} :
      isDigit m1 = true → isDigit m2 = true → isDigit s1 = true →
      isDigit s2 = true → isDigit f1 = true → isDigit f2 = true →
      TagIX ['[', m1, m2, ':', s1, s2, '.', f1, f2, ']']
  | fff {m1 m2 s1 s2 f1 f2 f3 : Char} :
      isDigit m1 = true → isDigit m2 = true → isDigit s1 = true →
      isDigit s2 = true → isDigit f1 = true → isDigit f2 = true →
      isDigit f3 = true →
      TagIX ['[', m1, m2, ':', s1, s2, '.', f1, f2, f3, ']']

theorem isDigit_ne {c : Char} (h : isDigit c = true) :
    c ≠ '[' ∧ c ≠ ']' ∧ c ≠ ':' ∧ c ≠ '.' ∧ c ≠ '\n' := by
  refine ⟨?_, ?_, ?_, ?_, ?_⟩ <;>
    (intro he; subst he; exact absurd h (by decide))

theorem tryTagCL_of_TagCL {t : List Char} (h : TagCL t) :
    ∀ v, tryTagCL (t ++ v) = some v := by
  intro v
  cases h with
  | ff h1 h2 h3 h4 h5 h6 =>
    have n5 := (isDigit_ne h5).2.2.1
    simp [tryTagCL, tagBodyCL, dotFrac, fracThenRB, h1, h2, h3, h4, h5, h6, n5]
  | fff h1 h2 h3 h4 h5 h6 h7 =>
    have n5 := (isDigit_ne h5).2.2.1
    have n7 := (isDigit_ne h7).2.1
    simp [tryTagCL, tagBodyCL, dotFrac, fracThenRB, h1, h2, h3, h4, h5, h6, h7, n5, n7]
  | long h1 h2 h3 h4 h5 h6 h7 h8 =>
    simp [tryTagCL, tagBodyCL, dotFrac, fracThenRB, h1, h2, h3, h4, h5, h6, h7, h8]

theorem tryTagIX_of_TagIX {t : List Char} (h : TagIX t) :
    ∀ v, tryTagIX (t ++ v) = some v := by
  intro v
  cases h with
  | plain h1 h2 h3 h4 =>
    simp [tryTagIX, tagBodyIX, dotFrac, h1, h2, h3, h4, Option.orElse]
  | ff h1 h2 h3 h4 h5 h6 =>
    have n5 := (isDigit_ne h5).2.2.1
    simp [tryTagIX, tagBodyIX, dotFrac, fracThenRB, h1, h2, h3, h4, h5, h6, n5,
      Option.orElse]
  | fff h1 h2 h3 h4 h5 h6 h7 =>
    have n5 := (isDigit_ne h5).2.2.1
    have n7 := (isDigit_ne h7).2.1
    simp [tryTagIX, tagBodyIX, dotFrac, fracThenRB, h1, h2, h3, h4, h5, h6, h7, n5, n7,
      Option.orElse]

theorem stripCL_cons_some {c : Char} {r rest : List Char}
    (h : tryTagCL (c :: r) = some rest) :
    stripCL (c :: r) = stripCL rest := by
  show stripCLGo (r.length + 1) (c :: r) = stripCLGo rest.length rest
  have hu : stripCLGo (r.length + 1) (c :: r) = stripCLGo r.length rest := by
    simp only [stripCLGo, h]
  rw [hu]
  have hlen := tryTagCL_length h
  simp only [List.length_cons] at hlen
  exact stripCLGo_irrel r.length rest.length rest (by omega) Nat.le.refl

theorem stripCL_cons_none {c : Char} {r : List Char}
    (h : tryTagCL (c :: r) = none) :
    stripCL (c :: r) = c :: stripCL r := by
  show stripCLGo (r.length + 1) (c :: r) = c :: stripCLGo r.length r
  simp only [stripCLGo, h]

theorem stripIX_cons_some {c : Char} {r rest : List Char}
    (h : tryTagIX (c :: r) = some rest) :
    stripIX (c :: r) = stripIX rest := by
  show stripIXGo (r.length + 1) (c :: r) = stripIXGo rest.length rest
  have hu : stripIXGo (r.length + 1) (c :: r) = stripIXGo r.length rest := by
    simp only [stripIXGo, h]
  rw [hu]
  have hlen := tryTagIX_length h
  simp only [List.length_cons] at hlen
  exact stripIXGo_irrel r.length rest.length rest (by omega) Nat.le.refl

theorem stripIX_cons_none {c : Char} {r : List Char}
    (h : tryTagIX (c :: r) = none) :
    stripIX (c :: r) = c :: stripIX r := by
  show stripIXGo (r.length + 1) (c :: r) = c :: stripIXGo r.length r
  simp only [stripIXGo, h]

theorem tryTagCL_none_of_ne {c : Char} {r : List Char} (hc : c ≠ '[') :
    tryTagCL (c :: r) = none := by
  simp [tryTagCL, hc]

theorem tryTagIX_none_of_ne {c : Char} {r : List Char} (hc : c ≠ '[') :
    tryTagIX (c :: r) = none := by
  simp [tryTagIX, hc]

theorem stripCL_append_nobr : ∀ {u r : List Char}, '[' ∉ u →
    stripCL (u ++ r) = u ++ stripCL r := by
  intro u
  induction u with
  | nil => intro r _; rfl
  | cons a u' ih =>
    intro r hu
    have ha : a ≠ '[' := fun he => hu (he ▸ List.mem_cons_self a u')
    rw [List.cons_append, stripCL_cons_none (tryTagCL_none_of_ne ha),
      ih (fun hm => hu (List.mem_cons_of_mem _ hm))]
    simp

theorem stripIX_append_nobr : ∀ {u r : List Char}, '[' ∉ u →
    stripIX (u ++ r) = u ++ stripIX r := by
  intro u
  induction u with
  | nil => intro r _; rfl
  | cons a u' ih =>
    intro r hu
    have ha : a ≠ '[' := fun he => hu (he ▸ List.mem_cons_self a u')
    rw [List.cons_append, stripIX_cons_none (tryTagIX_none_of_ne ha),
      ih (fun hm => hu (List.mem_cons_of_mem _ hm))]
    simp

theorem stripCL_tag {t v : List Char} (h : TagCL t) :
    stripCL (t ++ v) = stripCL v := by
  have htry := tryTagCL_of_TagCL h v
  cases h <;> exact stripCL_cons_some htry

theorem stripIX_tag {t v : List Char} (h : TagIX t) :
    stripIX (t ++ v) = stripIX v := by
  have htry := tryTagIX_of_TagIX h v
  cases h <;> exact stripIX_cons_some htry

theorem cleanLyricsCL_drop_tag {u t v : List Char} (hu : '[' ∉ u) (ht : TagCL t) :
    cleanLyricsCL (u ++ (t ++ v)) = cleanLyricsCL (u ++ v) := by
  unfold cleanLyricsCL
  rw [stripCL_append_nobr hu, stripCL_tag ht, stripCL_append_nobr hu]

theorem cleanLyricsIX_drop_tag {u t v : List Char} (hu : '[' ∉ u) (ht : TagIX t) :
    cleanLyricsIX (u ++ (t ++ v)) = cleanLyricsIX (u ++ v) := by
  unfold cleanLyricsIX
  rw [stripIX_append_nobr hu, stripIX_tag ht, stripIX_append_nobr hu]

/-! ## Producer-list lemmas (C4) -/

theorem filterMap_flatOne_eq_flatMap_leafStrs : ∀ l : List JVal,
    (flatOne l).filterMap strOf = l.flatMap leafStrs := by
  intro l
  induction l with
  | nil => rfl
  | cons v l' ih =>
    cases v with
    | str s => simp [flatOne, leafStrs, strOf, List.flatMap_cons] at ih ⊢; exact ih
    | arr m => simp [flatOne, leafStrs, List.flatMap_cons] at ih ⊢; exact ih
    | jnull => simp [flatOne, leafStrs, strOf, List.flatMap_cons] at ih ⊢; exact ih

theorem cleanP_masters_arr (l : List JVal) :
    cleanP_masters (some (JVal.arr l)) = l.flatMap leafStrs := by
  simp [cleanP_masters, filterMap_flatOne_eq_flatMap_leafStrs]

theorem ingestPMasters_arr (l : List JVal) :
    ingestPMasters (some (JVal.arr l)) = l.flatMap leafStrs := by
  simp [ingestPMasters, filterMap_flatOne_eq_flatMap_leafStrs]

/-! ## Rejection lemmas (C6) -/

theorem processSong_rejects (d : RawSong)
    (h : d.lyrics = none ∨ d.lyrics = some [] ∨
      trim (cleanLyricsCL (d.lyrics.getD [])) = [] ∨
      containsSub instrumentalStr (cleanLyricsCL (d.lyrics.getD [])) = true) :
    processSong d = none := by
  rcases hl : d.lyrics with _ | l
  · simp [processSong, hl]
  · rw [hl] at h
    simp only [Option.getD_some] at h
    by_cases h0 : l = []
    · simp [processSong, hl, h0]
    · by_cases h1 :
        (decide (l = notFoundStr) || containsSub fetchFailStr l ||
          decide (l = instrumentalStr)) = true
      · simp only [processSong, hl, if_neg h0, h1]
        rfl
      · rcases h with h | h | h | h
        · cases h
        · simp only [Option.some.injEq] at h
          exact absurd h h0
        · simp [processSong, hl, h0, h1, h]
        · simp [processSong, hl, h0, h1, h]

theorem processFile_skips {d : RawSong} (hd : processSong d = none)
    (pre post : List RawSong) :
    processFile (pre ++ d :: post) = processFile (pre ++ post) := by
  unfold processFile
  rw [List.filterMap_append, List.filterMap_append, List.filterMap_cons, hd]

/-! ## MetadataExtractor lemmas (C7) -/

theorem extract_fold_fst : ∀ (lines : List (List Char)) res0 m0,
    ((lines.foldl (fun acc line =>
      match creditOf line with
      | some p => (acc.1, upsert acc.2 p.1 p.2)
      | none => (acc.1 ++ [line], acc.2)) (res0, m0))).1 =
      res0 ++ lines.filter (fun l => (creditOf l).isNone) := by
  intro lines
  induction lines with
  | nil => intro res0 m0; simp
  | cons l ls ih =>
    intro res0 m0
    rcases hc : creditOf l with _ | p
    · rw [List.foldl_cons]
      simp only [hc]
      rw [ih]
      simp [List.filter_cons, hc]
    · rw [List.foldl_cons]
      simp only [hc]
      rw [ih]
      simp [List.filter_cons, hc]

theorem extract_fst (lines : List (List Char)) :
    (extract lines).1 = lines.filter (fun l => (creditOf l).isNone) := by
  unfold extract
  rw [extract_fold_fst]
  simp

theorem lookup_map_overwrite (ro' nm : List Char) :
    ∀ (m : List ((List Char) × (List Char))) (ro : List Char),
    mapLookup (m.map (fun p => if p.1 = ro' then (ro', nm) else p)) ro =
      if ro = ro' then (if m.any (fun p => p.1 = ro') then some nm else none)
      else mapLookup m ro := by
  intro m
  induction m with
  | nil => intro ro; simp [mapLookup]
  | cons kv m' ih =>
    intro ro
    by_cases hk : kv.1 = ro'
    · by_cases hro : ro = ro'
      · subst hro
        simp [mapLookup, hk, ih]
      · have h2 : ¬ kv.1 = ro := by rw [hk]; exact fun he => hro he.symm
        have h3 : ¬ ro' = ro := fun he => hro he.symm
        simp [mapLookup, hk, h2, h3, ih, hro]
    · by_cases hro : ro = ro'
      · subst hro
        have hd : (kv.1 = ro) = False := by simp [hk]
        simp only [mapLookup, List.map_cons, List.any_cons, if_neg hk, ih, if_pos rfl,
          hd, decide_False, Bool.false_or]
        simp
        intro h
        exact absurd h hk
      · simp [mapLookup, hk, hro, ih]

theorem lookup_not_found {m : List ((List Char) × (List Char))} {ro : List Char}
    (h : m.any (fun p => p.1 = ro) = false) : mapLookup m ro = none := by
  induction m with
  | nil => rfl
  | cons kv m' ih =>
    simp only [List.any_cons, Bool.or_eq_false_iff] at h
    have hk : ¬ kv.1 = ro := by simpa using h.1
    simp only [mapLookup, if_neg hk]
    exact ih h.2

theorem mapLookup_append_none {ro : List Char} : ∀ {m1 : List ((List Char) × (List Char))}
    (m2 : List ((List Char) × (List Char))), mapLookup m1 ro = none →
    mapLookup (m1 ++ m2) ro = mapLookup m2 ro := by
  intro m1
  induction m1 with
  | nil => intro m2 _; rfl
  | cons kv m1' ih1 =>
    intro m2 h1
    simp only [mapLookup] at h1 ⊢
    split at h1
    · cases h1
    · rename_i hne
      simp only [List.cons_append, mapLookup, if_neg hne]
      exact ih1 m2 h1

theorem mapLookup_append_single_ne {ro ro' nm : List Char} (hro : ¬ ro = ro') :
    ∀ m1 : List ((List Char) × (List Char)),
    mapLookup (m1 ++ [(ro', nm)]) ro = mapLookup m1 ro := by
  intro m1
  induction m1 with
  | nil =>
    have : ¬ ro' = ro := fun he => hro he.symm
    simp [mapLookup, this]
  | cons kv m1' ih1 =>
    by_cases hk : kv.1 = ro
    · simp [mapLookup, hk]
    · simp [mapLookup, hk, ih1]

theorem lookup_upsert (m : List ((List Char) × (List Char))) (ro' nm ro : List Char) :
    mapLookup (upsert m ro' nm) ro = if ro = ro' then some nm else mapLookup m ro := by
  unfold upsert
  by_cases hany : m.any (fun p => p.1 = ro') = true
  · rw [if_pos hany, lookup_map_overwrite]
    by_cases hro : ro = ro'
    · simp [hro, hany]
    · simp [hro]
  · rw [if_neg hany]
    by_cases hro : ro = ro'
    · subst hro
      have hnone : mapLookup m ro = none :=
        lookup_not_found (Bool.eq_false_iff.mpr hany)
      rw [mapLookup_append_none _ hnone]
      simp [mapLookup]
    · rw [mapLookup_append_single_ne hro]
      simp [hro]

theorem getLast?_cons_orElse {α : Type} (a : α) (xs : List α) :
    (a :: xs).getLast? = xs.getLast?.orElse (fun _ => some a) := by
  cases hx : xs.getLast? with
  | none =>
    have : xs = [] := by
      cases xs with
      | nil => rfl
      | cons b ys => simp [List.getLast?_eq_getLast] at hx
    subst this
    simp [Option.orElse]
  | some v =>
    rw [List.getLast?_cons]
    simp [Option.orElse, hx]

theorem option_map_orElse {α β : Type} (f : α → β) (o : Option α) (g : Unit → Option α) :
    (o.orElse g).map f = (o.map f).orElse (fun u => (g u).map f) := by
  cases o <;> rfl

theorem option_orElse_none {α : Type} (o : Option α) :
    o.orElse (fun _ => none) = o := by
  cases o <;> rfl

theorem lastCredit_cons_credit {l : List Char} {p : (List Char) × (List Char)}
    (hc : creditOf l = some p) (ls : List (List Char)) (ro : List Char) :
    lastCredit (l :: ls) ro =
      (lastCredit ls ro).orElse (fun _ => if ro = p.1 then some p.2 else none) := by
  unfold lastCredit
  rw [List.filterMap_cons, hc]
  by_cases hro : p.1 = ro
  · rw [List.filter_cons_of_pos (by simpa using hro), getLast?_cons_orElse,
      option_map_orElse]
    congr 1
    funext u
    simp [Option.map, hro.symm]
  · rw [List.filter_cons_of_neg (by simpa using hro)]
    have hro2 : ¬ ro = p.1 := fun he => hro he.symm
    simp only [if_neg hro2, option_orElse_none]

theorem lastCredit_cons_plain {l : List Char}
    (hc : creditOf l = none) (ls : List (List Char)) (ro : List Char) :
    lastCredit (l :: ls) ro = lastCredit ls ro := by
  unfold lastCredit
  rw [List.filterMap_cons, hc]

theorem extract_fold_snd : ∀ (lines : List (List Char)) res0 m0 ro,
    mapLookup ((lines.foldl (fun acc line =>
      match creditOf line with
      | some p => (acc.1, upsert acc.2 p.1 p.2)
      | none => (acc.1 ++ [line], acc.2)) (res0, m0))).2 ro =
      (lastCredit lines ro).orElse (fun _ => mapLookup m0 ro) := by
  intro lines
  induction lines with
  | nil => intro res0 m0 ro; simp [lastCredit, Option.orElse]
  | cons l ls ih =>
    intro res0 m0 ro
    rcases hc : creditOf l with _ | p
    · rw [List.foldl_cons]
      simp only [hc]
      rw [ih, lastCredit_cons_plain hc]
    · rw [List.foldl_cons]
      simp only [hc]
      rw [ih, lastCredit_cons_credit hc, lookup_upsert]
      rcases hl : lastCredit ls ro with _ | v <;>
        by_cases hro : ro = p.1 <;>
          simp [hl, hro, Option.orElse]

theorem extract_snd_lookup (lines : List (List Char)) (ro : List Char) :
    mapLookup (extract lines).2 ro = lastCredit lines ro := by
  unfold extract
  rw [extract_fold_snd]
  rcases hl : lastCredit lines ro with _ | v <;> simp [Option.orElse, mapLookup]

/-! ## Store serialization lemmas (C8, C9) -/

theorem pString_quote (r : List Char) : pString ('"' :: r) = some ([], r) := by
  rw [pString.eq_def]
  simp

theorem pString_unesc {e u : Char} {r2 s r4 : List Char} (he : ¬ e = 'u')
    (hu : unescChar e = some u) (hp : pString r2 = some (s, r4)) :
    pString ('\\' :: e :: r2) = some (u :: s, r4) := by
  rw [pString.eq_def]
  simp [he, hu, hp]

theorem pString_u {h1 h2 h3 h4 : Char} {r3 s r4 : List Char}
    (hhex : (isHex h1 && isHex h2 && isHex h3 && isHex h4) = true)
    (hp : pString r3 = some (s, r4)) :
    pString ('\\' :: 'u' :: h1 :: h2 :: h3 :: h4 :: r3) =
      some (Char.ofNat (((hexVal h1 * 16 + hexVal h2) * 16 + hexVal h3) * 16 +
        hexVal h4) :: s, r4) := by
  rw [pString.eq_def]
  simp [hhex, hp]

theorem pString_plain {c : Char} {r s r4 : List Char} (h1 : ¬ c = '"')
    (h2 : ¬ c = '\\') (hp : pString r = some (s, r4)) :
    pString (c :: r) = some (c :: s, r4) := by
  rw [pString.eq_def]
  simp [h1, h2, hp]

theorem hexVal_hexDig : ∀ n, n < 16 → hexVal (hexDig n) = n := by decide

theorem isHex_hexDig : ∀ n, n < 16 → isHex (hexDig n) = true := by decide

theorem pString_escChars : ∀ (s rest : List Char),
    pString (escChars s ++ '"' :: rest) = some (s, rest) := by
  intro s
  induction s with
  | nil => intro rest; exact pString_quote rest
  | cons c s' ih =>
    intro rest
    have hesc : escChars (c :: s') = escChar c ++ escChars s' := by
      simp [escChars]
    rw [hesc, List.append_assoc]
    by_cases hq : c = '"'
    · subst hq
      rw [show escChar '"' = ['\\', '"'] from rfl]
      exact pString_unesc (by decide) (by decide) (ih rest)
    · by_cases hb : c = '\\'
      · subst hb
        rw [show escChar '\\' = ['\\', '\\'] from rfl]
        exact pString_unesc (by decide) (by decide) (ih rest)
      · by_cases hn : c = '\n'
        · subst hn
          rw [show escChar '\n' = ['\\', 'n'] from rfl]
          exact pString_unesc (by decide) (by decide) (ih rest)
        · by_cases hr : c = '\x0d'
          · subst hr
            rw [show escChar '\x0d' = ['\\', 'r'] from rfl]
            exact pString_unesc (by decide) (by decide) (ih rest)
          · by_cases ht : c = '\t'
            · subst ht
              rw [show escChar '\t' = ['\\', 't'] from rfl]
              exact pString_unesc (by decide) (by decide) (ih rest)
            · by_cases hbs : c = '\x08'
              · subst hbs
                rw [show escChar '\x08' = ['\\', 'b'] from rfl]
                exact pString_unesc (by decide) (by decide) (ih rest)
              · by_cases hf : c = '\x0c'
                · subst hf
                  rw [show escChar '\x0c' = ['\\', 'f'] from rfl]
                  exact pString_unesc (by decide) (by decide) (ih rest)
                · by_cases hc : c.toNat < 32
                  · have hesc2 : escChar c =
                        ['\\', 'u', '0', '0', hexDig (c.toNat / 16),
                          hexDig (c.toNat % 16)] := by
                      unfold escChar
                      rw [if_neg hq, if_neg hb, if_neg hn, if_neg hr, if_neg ht,
                        if_neg hbs, if_neg hf, if_pos hc]
                    rw [hesc2]
                    have hd1 : c.toNat / 16 < 16 := by omega
                    have hd2 : c.toNat % 16 < 16 := by omega
                    have hhex : (isHex '0' && isHex '0' &&
                        isHex (hexDig (c.toNat / 16)) &&
                        isHex (hexDig (c.toNat % 16))) = true := by
                      rw [isHex_hexDig _ hd1, isHex_hexDig _ hd2]
                      decide
                    show pString ('\\' :: 'u' :: '0' :: '0' ::
                      hexDig (c.toNat / 16) :: hexDig (c.toNat % 16) ::
                      (escChars s' ++ '"' :: rest)) = some (c :: s', rest)
                    rw [pString_u hhex (ih rest)]
                    have hval : ((hexVal '0' * 16 + hexVal '0') * 16 +
                        hexVal (hexDig (c.toNat / 16))) * 16 +
                        hexVal (hexDig (c.toNat % 16)) = c.toNat := by
                      rw [hexVal_hexDig _ hd1, hexVal_hexDig _ hd2]
                      have : hexVal '0' = 0 := by decide
                      rw [this]
                      omega
                    rw [hval, Char.ofNat_toNat]
                  · have hesc2 : escChar c = [c] := by
                      unfold escChar
                      rw [if_neg hq, if_neg hb, if_neg hn, if_neg hr, if_neg ht,
                        if_neg hbs, if_neg hf, if_neg hc]
                    rw [hesc2]
                    exact pString_plain hq hb (ih rest)

theorem parseLit_self : ∀ (pat rest : List Char),
    parseLit pat (pat ++ rest) = some rest := by
  intro pat
  induction pat with
  | nil => intro rest; rfl
  | cons c pat' ih =>
    intro rest
    simp [parseLit, ih]

theorem pStrRest_rb (r : List Char) : pStrRest (']' :: r) = some ([], r) := by
  rw [pStrRest.eq_def]
  simp

theorem pStrRest_comma {r2 s r3 r4 : List Char} {ss : List (List Char)}
    (hp : pString r2 = some (s, r3)) (hrest : pStrRest r3 = some (ss, r4)) :
    pStrRest (',' :: '"' :: r2) = some (s :: ss, r4) := by
  have h1 : ¬ (',' : Char) = ']' := by decide
  simp only [pStrRest, if_neg h1, if_pos rfl]
  split
  · split
    · rename_i sr hx
      rw [hp] at hx; cases hx
      simp [hrest]
    · rename_i hx
      rw [hp] at hx; cases hx
  · rename_i hx
    exact absurd trivial hx

theorem pStrList_rb (r : List Char) : pStrList (']' :: r) = some ([], r) := by
  rw [pStrList.eq_def]
  simp

theorem pStrList_str {r2 s r3 r4 : List Char} {ss : List (List Char)}
    (hp : pString r2 = some (s, r3)) (hrest : pStrRest r3 = some (ss, r4)) :
    pStrList ('"' :: r2) = some (s :: ss, r4) := by
  have h1 : ¬ ('"' : Char) = ']' := by decide
  simp [pStrList, h1, hp, hrest]

theorem pStrRest_loop : ∀ (ps : List (List Char)) (rest : List Char),
    pStrRest ((ps.flatMap (fun s => ',' :: qstr s)) ++ (']' :: rest)) =
      some (ps, rest) := by
  intro ps
  induction ps with
  | nil => intro rest; exact pStrRest_rb rest
  | cons s ps' ih =>
    intro rest
    have : (s :: ps').flatMap (fun t => ',' :: qstr t) ++ (']' :: rest) =
        ',' :: '"' :: (escChars s ++ '"' ::
          (ps'.flatMap (fun t => ',' :: qstr t) ++ (']' :: rest))) := by
      simp [qstr, List.flatMap_cons, List.append_assoc]
    rw [this, pStrRest_comma (pString_escChars s _) (ih rest)]

theorem itemsJoin_map_qstr : ∀ (ps : List (List Char)) (s : List Char),
    itemsJoin ((s :: ps).map qstr) =
      qstr s ++ ps.flatMap (fun t => ',' :: qstr t) := by
  intro ps
  induction ps with
  | nil => intro s; simp [itemsJoin]
  | cons t ps' ih =>
    intro s
    rw [List.map_cons, List.map_cons]
    rw [show itemsJoin (qstr s :: qstr t :: ps'.map qstr) =
      qstr s ++ ',' :: itemsJoin (qstr t :: ps'.map qstr) from rfl]
    rw [show (t :: ps').flatMap (fun u => ',' :: qstr u) =
      ',' :: qstr t ++ ps'.flatMap (fun u => ',' :: qstr u) from by
        simp [List.flatMap_cons]]
    rw [← List.map_cons, ih]
    simp

theorem pStrList_items : ∀ (ps : List (List Char)) (rest : List Char),
    pStrList (itemsJoin (ps.map qstr) ++ (']' :: rest)) = some (ps, rest) := by
  intro ps rest
  cases ps with
  | nil => simpa [itemsJoin] using pStrList_rb rest
  | cons s ps' =>
    rw [itemsJoin_map_qstr]
    have : (qstr s ++ ps'.flatMap (fun t => ',' :: qstr t)) ++ (']' :: rest) =
        '"' :: (escChars s ++ '"' ::
          (ps'.flatMap (fun t => ',' :: qstr t) ++ (']' :: rest))) := by
      simp [qstr, List.append_assoc]
    rw [this, pStrList_str (pString_escChars s _) (pStrRest_loop ps' rest)]

theorem parLit1_eq : parLit1 = '\x7b' :: serLit1 := by decide

theorem serLit2_eq : serLit2 = '"' :: parLit2 := by decide

theorem serLit3_eq : serLit3 = ']' :: parLit3 := by decide

theorem serializeRecord_shape (r : Record) :
    serializeRecord r = parLit1 ++ (escChars r.song_title ++ '"' ::
      (parLit2 ++ (itemsJoin (r.p_masters.map qstr) ++ ']' ::
        (parLit3 ++ (escChars r.lyrics ++ '"' :: ['\x7d']))))) := by
  unfold serializeRecord
  rw [parLit1_eq, serLit2_eq, serLit3_eq]
  simp [List.append_assoc]

theorem parseLit_self_nil (pat : List Char) : parseLit pat pat = some [] := by
  have := parseLit_self pat []
  simpa using this

theorem parseRecord_serializeRecord (r : Record) :
    parseRecord (serializeRecord r) = some r := by
  rw [serializeRecord_shape, parseRecord]
  simp only [Option.bind_eq_bind, Option.some_bind, parseLit_self,
    pString_escChars, pStrList_items, parseLit_self_nil]
  rfl

theorem escChar_no_nl (c : Char) : ∀ c' ∈ escChar c, c' ≠ '\n' := by
  intro c' hc'
  unfold escChar at hc'
  by_cases h1 : c = '"'
  · rw [if_pos h1] at hc'; fin_cases hc' <;> decide
  · rw [if_neg h1] at hc'
    by_cases h2 : c = '\\'
    · rw [if_pos h2] at hc'; fin_cases hc' <;> decide
    · rw [if_neg h2] at hc'
      by_cases h3 : c = '\n'
      · rw [if_pos h3] at hc'; fin_cases hc' <;> decide
      · rw [if_neg h3] at hc'
        by_cases h4 : c = '\x0d'
        · rw [if_pos h4] at hc'; fin_cases hc' <;> decide
        · rw [if_neg h4] at hc'
          by_cases h5 : c = '\t'
          · rw [if_pos h5] at hc'; fin_cases hc' <;> decide
          · rw [if_neg h5] at hc'
            by_cases h6 : c = '\x08'
            · rw [if_pos h6] at hc'; fin_cases hc' <;> decide
            · rw [if_neg h6] at hc'
              by_cases h7 : c = '\x0c'
              · rw [if_pos h7] at hc'; fin_cases hc' <;> decide
              · rw [if_neg h7] at hc'
                by_cases h8 : c.toNat < 32
                · rw [if_pos h8] at hc'
                  have hd1 : c.toNat / 16 < 16 := by omega
                  have hd2 : c.toNat % 16 < 16 := by omega
                  have hx : ∀ n, n < 16 → hexDig n ≠ '\n' := by decide
                  simp only [List.mem_cons, List.not_mem_nil, or_false] at hc'
                  rcases hc' with h | h | h | h | h | h <;> subst h
                  · decide
                  · decide
                  · decide
                  · decide
                  · exact hx _ hd1
                  · exact hx _ hd2
                · rw [if_neg h8] at hc'
                  simp only [List.mem_singleton] at hc'
                  subst hc'
                  intro he
                  subst he
                  exact h8 (by decide)

theorem escChars_no_nl (s : List Char) : '\n' ∉ escChars s := by
  intro hs
  unfold escChars at hs
  obtain ⟨c, _, hc⟩ := List.mem_flatMap.mp hs
  exact escChar_no_nl c '\n' hc rfl

theorem qstr_no_nl (s : List Char) : '\n' ∉ qstr s := by
  intro h
  unfold qstr at h
  simp only [List.mem_cons, List.mem_append, List.mem_singleton,
    List.not_mem_nil, or_false] at h
  rcases h with h | h | h
  · exact absurd h (by decide)
  · exact escChars_no_nl s h
  · exact absurd h (by decide)

theorem itemsJoin_no_nl : ∀ ps : List (List Char),
    (∀ x ∈ ps, '\n' ∉ x) → '\n' ∉ itemsJoin ps := by
  intro ps
  induction ps with
  | nil => intro _ h; simpa [itemsJoin] using h
  | cons x xs ih =>
    intro hall h
    cases xs with
    | nil =>
      simp only [itemsJoin] at h
      exact hall x (by simp) h
    | cons y ys =>
      rw [show itemsJoin (x :: y :: ys) = x ++ ',' :: itemsJoin (y :: ys)
        from rfl] at h
      simp only [List.mem_append, List.mem_cons] at h
      rcases h with h | h | h
      · exact hall x (by simp) h
      · cases h
      · exact ih (fun z hz => hall z (List.mem_cons_of_mem _ hz)) h

theorem serializeRecord_no_nl (r : Record) : '\n' ∉ serializeRecord r := by
  intro hmem
  unfold serializeRecord at hmem
  simp only [List.mem_cons, List.mem_append, List.not_mem_nil, or_false,
    List.mem_singleton] at hmem
  have hitems : '\n' ∉ itemsJoin (r.p_masters.map qstr) :=
    itemsJoin_no_nl _ (by
      intro z hz
      obtain ⟨w, _, hw⟩ := List.mem_map.mp hz
      subst hw
      exact qstr_no_nl w)
  rcases hmem with (h | hbig | h) | h
  · exact absurd h (by decide)
  · rcases hbig with ((((h | h) | h) | h) | h) | h
    · exact absurd h (by decide)
    · exact escChars_no_nl _ h
    · exact absurd h (by decide)
    · exact hitems h
    · exact absurd h (by decide)
    · exact escChars_no_nl _ h
  · exact absurd h (by decide)
  · exact absurd h (by decide)

theorem trim_eq_self_ends {a b : Char} {m : List Char}
    (ha : isWs a = false) (hb : isWs b = false) :
    trim (a :: (m ++ [b])) = a :: (m ++ [b]) := by
  unfold trim dropTrail
  have ha' : ¬ isWs a = true := by simp [ha]
  have hb' : ¬ isWs b = true := by simp [hb]
  rw [List.dropWhile_cons_of_neg ha']
  have hrev : (a :: (m ++ [b])).reverse = b :: (a :: m).reverse := by
    rw [show a :: (m ++ [b]) = (a :: m) ++ [b] from rfl, List.reverse_concat]
  rw [hrev, List.dropWhile_cons_of_neg hb', ← hrev]
  simp

theorem trim_serializeRecord (r : Record) :
    trim (serializeRecord r) = serializeRecord r := by
  unfold serializeRecord
  exact trim_eq_self_ends (by decide) (by decide)

theorem serializeRecord_trim_ne_nil (r : Record) :
    trim (serializeRecord r) ≠ [] := by
  rw [trim_serializeRecord]
  simp [serializeRecord]

theorem splitNl_append_nl : ∀ {l : List Char} (r : List Char), '\n' ∉ l →
    splitNl (l ++ '\n' :: r) = l :: splitNl r := by
  intro l
  induction l with
  | nil => intro r _; simp [splitNl]
  | cons c l' ih =>
    intro r hl
    have hc : ¬ c = '\n' := fun he => hl (he ▸ List.mem_cons_self c l')
    have ih' := ih r (fun hm => hl (List.mem_cons_of_mem _ hm))
    rw [List.cons_append]
    simp only [splitNl, if_neg hc, ih']

theorem splitNl_store : ∀ (lines : List (List Char)),
    (∀ l ∈ lines, '\n' ∉ l) → lines ≠ [] →
    splitNl (joinNl lines ++ ['\n']) = lines ++ [[]] := by
  intro lines
  induction lines with
  | nil => intro _ h; exact absurd rfl h
  | cons x ls ih =>
    intro hall _
    cases ls with
    | nil =>
      rw [show joinNl [x] = x from rfl]
      rw [splitNl_append_nl [] (hall x (by simp))]
      rfl
    | cons y ys =>
      rw [show joinNl (x :: y :: ys) = x ++ '\n' :: joinNl (y :: ys) from rfl]
      rw [List.append_assoc, List.cons_append,
        splitNl_append_nl _ (hall x (by simp)),
        ih (fun l hl => hall l (List.mem_cons_of_mem _ hl)) (by simp)]
      rfl

theorem loadAll_fold : ∀ (rs : List Record) (acc : List Record) (k : Nat),
    ((rs.map serializeRecord).foldl
      (fun acc l =>
        match parseRecord (trim l) with
        | some r => (acc.1 ++ [r], acc.2)
        | none => (acc.1, acc.2 + 1)) (acc, k)) = (acc ++ rs, k) := by
  intro rs
  induction rs with
  | nil => intro acc k; simp
  | cons r rs' ih =>
    intro acc k
    rw [List.map_cons, List.foldl_cons]
    have hp : parseRecord (trim (serializeRecord r)) = some r := by
      rw [trim_serializeRecord]
      exact parseRecord_serializeRecord r
    simp only [hp, ih]
    simp

theorem loadAll_storeContent (rs : List Record) :
    loadAll (storeContent rs) = (rs, 0) := by
  cases rs with
  | nil => rfl
  | cons r rs' =>
    unfold loadAll storeContent
    rw [splitNl_store _ (by
        intro l hl
        obtain ⟨q, _, hq⟩ := List.mem_map.mp hl
        subst hq
        exact serializeRecord_no_nl q) (by simp)]
    rw [List.filter_append]
    have h1 : ((r :: rs').map serializeRecord).filter (fun l => trim l ≠ []) =
        (r :: rs').map serializeRecord := by
      rw [List.filter_eq_self]
      intro a ha
      obtain ⟨q, _, hq⟩ := List.mem_map.mp ha
      subst hq
      simpa using serializeRecord_trim_ne_nil q
    have h2 : ([([] : List Char)]).filter (fun l => trim l ≠ []) = [] := by
      simp [trim, dropTrail]
    rw [h1, h2, List.append_nil, loadAll_fold]
    simp

theorem loadAll_with_bad (rs : List Record) (bad : List Char)
    (hnl : '\n' ∉ bad) (hne : trim bad ≠ []) (hp : parseRecord (trim bad) = none) :
    loadAll (joinNl (rs.map serializeRecord ++ [bad]) ++ ['\n']) = (rs, 1) := by
  unfold loadAll
  rw [splitNl_store _ (by
      intro l hl
      rcases List.mem_append.mp hl with hl | hl
      · obtain ⟨q, _, hq⟩ := List.mem_map.mp hl
        subst hq
        exact serializeRecord_no_nl q
      · rw [List.mem_singleton] at hl
        subst hl
        exact hnl) (by simp)]
  rw [List.filter_append, List.filter_append]
  have h1 : (rs.map serializeRecord).filter (fun l => trim l ≠ []) =
      rs.map serializeRecord := by
    rw [List.filter_eq_self]
    intro a ha
    obtain ⟨q, _, hq⟩ := List.mem_map.mp ha
    subst hq
    simpa using serializeRecord_trim_ne_nil q
  have h2 : ([bad]).filter (fun l => trim l ≠ []) = [bad] := by
    simp [hne]
  have h3 : ([([] : List Char)]).filter (fun l => trim l ≠ []) = [] := by
    simp [trim, dropTrail]
  rw [h1, h2, h3, List.append_nil, List.foldl_append, loadAll_fold]
  simp [hp]

/-! ## Ingestor run lemmas (C3, C10) -/

theorem stepSong_eta (acc : Finset (List Char) × List Track × List Record)
    (t : Track) :
    stepSong acc t = (insert (keyT t) acc.1, acc.2.1 ++ [t], (stepSong acc t).2.2) :=
  rfl

theorem stepSong_appended (acc : Finset (List Char) × List Track × List Record)
    (t : Track) :
    (stepSong acc t).2.2 = match getSongLyricM t with
      | some r => if r.lyrics.isEmpty then acc.2.2 else acc.2.2 ++ [r]
      | none => acc.2.2 :=
  rfl

theorem processPage_fold_existing : ∀ (songs : List Track)
    (ex : Finset (List Char)) (f : List Track) (a : List Record),
    (songs.foldl stepSong (ex, f, a)).1 =
      ex ∪ (songs.map keyT).toFinset := by
  intro songs
  induction songs with
  | nil => intro ex f a; simp
  | cons t ts ih =>
    intro ex f a
    rw [List.foldl_cons, stepSong_eta, ih]
    simp only [List.map_cons, List.toFinset_cons]
    ext k
    simp [Finset.mem_union, Finset.mem_insert]

theorem processPage_fold_fetched : ∀ (songs : List Track)
    (ex : Finset (List Char)) (f : List Track) (a : List Record),
    (songs.foldl stepSong (ex, f, a)).2.1 = f ++ songs := by
  intro songs
  induction songs with
  | nil => intro ex f a; simp
  | cons t ts ih =>
    intro ex f a
    rw [List.foldl_cons, stepSong_eta, ih]
    simp

theorem processPage_fold_appended : ∀ (songs : List Track)
    (ex : Finset (List Char)) (f : List Track) (a : List Record)
    {r : Record},
    r ∈ (songs.foldl stepSong (ex, f, a)).2.2 →
    r ∈ a ∨ ∃ t ∈ songs, getSongLyricM t = some r := by
  intro songs
  induction songs with
  | nil => intro ex f a r hr; exact Or.inl hr
  | cons t ts ih =>
    intro ex f a r hr
    rw [List.foldl_cons, stepSong_eta] at hr
    rcases ih _ _ _ hr with h | ⟨t', ht', hg'⟩
    · rw [stepSong_appended] at h
      rcases hg : getSongLyricM t with _ | rec
      · rw [hg] at h
        exact Or.inl h
      · rw [hg] at h
        have h2 : r ∈ (if rec.lyrics.isEmpty then a else a ++ [rec]) := h
        by_cases hemp : rec.lyrics.isEmpty
        · rw [if_pos hemp] at h2
          exact Or.inl h2
        · rw [if_neg hemp] at h2
          rcases List.mem_append.mp h2 with h | h
          · exact Or.inl h
          · rw [List.mem_singleton] at h
            subst h
            exact Or.inr ⟨t, List.mem_cons_self t ts, hg⟩
    · exact Or.inr ⟨t', List.mem_cons_of_mem _ ht', hg'⟩

theorem processPage_existing (ex : Finset (List Char)) (page : List Track) :
    (processPage ex page).1 =
      ex ∪ ((page.filter (fun t => decide (keyT t ∉ ex))).map keyT).toFinset := by
  unfold processPage
  rw [processPage_fold_existing]

theorem processPage_fetched (ex : Finset (List Char)) (page : List Track) :
    (processPage ex page).2.1 = page.filter (fun t => decide (keyT t ∉ ex)) := by
  unfold processPage
  rw [processPage_fold_fetched]
  simp

theorem processPage_subset (ex : Finset (List Char)) (page : List Track) :
    ex ⊆ (processPage ex page).1 := by
  rw [processPage_existing]
  exact Finset.subset_union_left

theorem processPage_appended_key {ex : Finset (List Char)} {page : List Track}
    {r : Record} (hr : r ∈ (processPage ex page).2.2) :
    keyR r ∉ ex ∧ keyR r ∈ (processPage ex page).1 := by
  unfold processPage at hr ⊢
  rcases processPage_fold_appended _ _ _ _ hr with h | ⟨t, ht, hg⟩
  · simp at h
  · have hkey : keyR r = keyT t := by
      unfold getSongLyricM at hg
      rcases hly : t.lyric with _ | ly
      · rw [hly] at hg; cases hg
      · rw [hly] at hg
        have hg2 : (if (ly.isEmpty || (trim ly).isEmpty ||
              containsSub instrumentalStr ly) = true then (none : Option Record)
            else some ⟨t.name, ingestPMasters t.artist, cleanLyricsIX ly⟩) =
            some r := hg
        split at hg2
        · cases hg2
        · cases hg2
          rfl
    have htf := List.mem_filter.mp ht
    constructor
    · rw [hkey]
      simpa using htf.2
    · rw [processPage_fold_existing, hkey]
      apply Finset.mem_union_right
      rw [List.mem_toFinset]
      exact List.mem_map_of_mem keyT ht

theorem runPages_cons (ex : Finset (List Char)) (p : List Track)
    (ps : List (List Track)) :
    runPages ex (p :: ps) =
      ((runPages (processPage ex p).1 ps).1,
        (processPage ex p).2.1 :: (runPages (processPage ex p).1 ps).2.1,
        (processPage ex p).2.2 :: (runPages (processPage ex p).1 ps).2.2) :=
  rfl

theorem runPages_len_fetched : ∀ (ps : List (List Track)) (ex : Finset (List Char)),
    ((runPages ex ps).2.1).length = ps.length := by
  intro ps
  induction ps with
  | nil => intro ex; rfl
  | cons p ps' ih =>
    intro ex
    rw [runPages_cons]
    simp [ih]

theorem runPages_len_appended : ∀ (ps : List (List Track)) (ex : Finset (List Char)),
    ((runPages ex ps).2.2).length = ps.length := by
  intro ps
  induction ps with
  | nil => intro ex; rfl
  | cons p ps' ih =>
    intro ex
    rw [runPages_cons]
    simp [ih]

theorem runPages_subset : ∀ (ps : List (List Track)) (ex : Finset (List Char)),
    ex ⊆ (runPages ex ps).1 := by
  intro ps
  induction ps with
  | nil => intro ex; exact Finset.Subset.refl ex
  | cons p ps' ih =>
    intro ex
    rw [runPages_cons]
    exact Finset.Subset.trans (processPage_subset ex p) (ih _)

theorem runPages_appended_not_in : ∀ (ps : List (List Track))
    (ex : Finset (List Char)) (j : Nat) (pg : List Record) (r : Record),
    ((runPages ex ps).2.2).get? j = some pg → r ∈ pg → keyR r ∉ ex := by
  intro ps
  induction ps with
  | nil =>
    intro ex j pg r hg
    simp [runPages] at hg
  | cons p ps' ih =>
    intro ex j pg r hg hr
    rw [runPages_cons] at hg
    cases j with
    | zero =>
      rw [List.get?_cons_zero] at hg
      cases hg
      exact (processPage_appended_key hr).1
    | succ k =>
      rw [List.get?_cons_succ] at hg
      intro hk
      exact ih _ k pg r hg hr (processPage_subset ex p hk)

theorem runPages_fetched_not_in : ∀ (ps : List (List Track))
    (ex : Finset (List Char)) (j : Nat) (pg : List Track) (t : Track),
    ((runPages ex ps).2.1).get? j = some pg → t ∈ pg → keyT t ∉ ex := by
  intro ps
  induction ps with
  | nil =>
    intro ex j pg t hg
    simp [runPages] at hg
  | cons p ps' ih =>
    intro ex j pg t hg ht
    rw [runPages_cons] at hg
    cases j with
    | zero =>
      rw [List.get?_cons_zero] at hg
      cases hg
      rw [processPage_fetched] at ht
      simpa using (List.mem_filter.mp ht).2
    | succ k =>
      rw [List.get?_cons_succ] at hg
      intro hk
      exact ih _ k pg t hg ht (processPage_subset ex p hk)

theorem processPage_fetched_key_in {ex : Finset (List Char)} {page : List Track}
    {t : Track} (ht : t ∈ (processPage ex page).2.1) :
    keyT t ∈ (processPage ex page).1 := by
  rw [processPage_fetched] at ht
  rw [processPage_existing]
  apply Finset.mem_union_right
  rw [List.mem_toFinset]
  exact List.mem_map_of_mem keyT ht

theorem runPages_final : ∀ (ps : List (List Track)) (ex : Finset (List Char)),
    (runPages ex ps).1 =
      ex ∪ ((((runPages ex ps).2.1).flatten).map keyT).toFinset := by
  intro ps
  induction ps with
  | nil => intro ex; simp [runPages]
  | cons p ps' ih =>
    intro ex
    rw [runPages_cons]
    simp only []
    rw [ih, processPage_existing, processPage_fetched]
    ext k
    simp only [Finset.mem_union, List.mem_toFinset, List.mem_map,
      List.flatten_cons, List.mem_append]
    constructor
    · rintro ((hk | hk) | hk)
      · exact Or.inl hk
      · obtain ⟨t, ht, hkt⟩ := hk
        exact Or.inr ⟨t, Or.inl ht, hkt⟩
      · obtain ⟨t, ht, hkt⟩ := hk
        exact Or.inr ⟨t, Or.inr ht, hkt⟩
    · rintro (hk | ⟨t, ht | ht, hkt⟩)
      · exact Or.inl (Or.inl hk)
      · exact Or.inl (Or.inr ⟨t, ht, hkt⟩)
      · exact Or.inr ⟨t, ht, hkt⟩

theorem runPages_cross_page_distinct : ∀ (ps : List (List Track))
    (ex : Finset (List Char)) (i j : Nat) (pgi pgj : List Record)
    (r1 r2 : Record), i < j →
    ((runPages ex ps).2.2).get? i = some pgi →
    ((runPages ex ps).2.2).get? j = some pgj →
    r1 ∈ pgi → r2 ∈ pgj →
    keyR r1 ≠ keyR r2 := by
  intro ps
  induction ps with
  | nil =>
    intro ex i j pgi pgj r1 r2 hij hgi
    simp [runPages] at hgi
  | cons p ps' ih =>
    intro ex i j pgi pgj r1 r2 hij hgi hgj h1 h2
    rw [runPages_cons] at hgi hgj
    cases i with
    | zero =>
      cases j with
      | zero => exact absurd hij (by omega)
      | succ k =>
        rw [List.get?_cons_zero] at hgi
        cases hgi
        rw [List.get?_cons_succ] at hgj
        have hk1 : keyR r1 ∈ (processPage ex p).1 :=
          (processPage_appended_key h1).2
        have hk2 : keyR r2 ∉ (processPage ex p).1 :=
          runPages_appended_not_in ps' _ k pgj r2 hgj h2
        intro he
        rw [he] at hk1
        exact hk2 hk1
    | succ k =>
      cases j with
      | zero => exact absurd hij (by omega)
      | succ m =>
        rw [List.get?_cons_succ] at hgi hgj
        exact ih _ k m pgi pgj r1 r2 (by omega) hgi hgj h1 h2

theorem runPages_no_refetch : ∀ (ps : List (List Track))
    (ex : Finset (List Char)) (i j : Nat) (pgi pgj : List Track)
    (t t' : Track), i < j →
    ((runPages ex ps).2.1).get? i = some pgi →
    ((runPages ex ps).2.1).get? j = some pgj →
    t ∈ pgi → keyT t' = keyT t →
    t' ∉ pgj := by
  intro ps
  induction ps with
  | nil =>
    intro ex i j pgi pgj t t' hij hgi
    simp [runPages] at hgi
  | cons p ps' ih =>
    intro ex i j pgi pgj t t' hij hgi hgj h1 hkey h2
    rw [runPages_cons] at hgi hgj
    cases i with
    | zero =>
      cases j with
      | zero => exact absurd hij (by omega)
      | succ k =>
        rw [List.get?_cons_zero] at hgi
        cases hgi
        rw [List.get?_cons_succ] at hgj
        have hk1 : keyT t ∈ (processPage ex p).1 :=
          processPage_fetched_key_in h1
        have hk2 : keyT t' ∉ (processPage ex p).1 :=
          runPages_fetched_not_in ps' _ k pgj t' hgj h2
        rw [hkey] at hk2
        exact hk2 hk1
    | succ k =>
      cases j with
      | zero => exact absurd hij (by omega)
      | succ m =>
        rw [List.get?_cons_succ] at hgi hgj
        exact ih _ k m pgi pgj t t' (by omega) hgi hgj h1 hkey h2

/-! ## Claim theorems -/

/-- C1 (counterexample): the claim "clean removes every timing tag of each of
the four forms [mm:ss], [mm:ss.ff], [mm:ss.fff], [mm:ss:ss.ff]" is false on
the code: the `clean_lyrics.js` cleaner leaves the fraction-less `[01:23]`
(form `[mm:ss]`) in place, and the `index.js` cleaner leaves
`[00:11:22.33]` (form `[mm:ss:ss.ff]`) in place. -/
theorem C1_counterexample :
    cleanLyricsCL ("[01:23]晴天".toList) = "[01:23]晴天".toList ∧
    containsSub ("[01:23]".toList) (cleanLyricsCL ("[01:23]晴天".toList)) = true ∧
    cleanLyricsIX ("[00:11:22.33]晴天".toList) = "[00:11:22.33]晴天".toList ∧
    containsSub ("[00:11:22.33]".toList)
      (cleanLyricsIX ("[00:11:22.33]晴天".toList)) = true := by
  refine ⟨by decide, by decide, by decide, by decide⟩

/-- C1 (amended): each cleaner removes exactly its own regex's timing-tag
forms wherever they occur after bracket-free text — `clean_lyrics.js`
removes the fraction-bearing forms `[mm:ss.ff]`, `[mm:ss.fff]`,
`[mm:ss:ss.ff]` (`TagCL`), and `index.js` removes `[mm:ss]`, `[mm:ss.ff]`,
`[mm:ss.fff]` (`TagIX`); deleting such a tag does not change the cleaned
output. -/
theorem C1_clean_removes_own_tag_forms :
    (∀ u t v : List Char, '[' ∉ u → TagCL t →
      cleanLyricsCL (u ++ (t ++ v)) = cleanLyricsCL (u ++ v)) ∧
    (∀ u t v : List Char, '[' ∉ u → TagIX t →
      cleanLyricsIX (u ++ (t ++ v)) = cleanLyricsIX (u ++ v)) := by
  exact ⟨fun u t v hu ht => cleanLyricsCL_drop_tag hu ht,
    fun u t v hu ht => cleanLyricsIX_drop_tag hu ht⟩

/-- C1 (witness): the amended theorem applied at concrete inputs. -/
theorem C1_witness :
    cleanLyricsCL (['a'] ++ (['[', '0', '1', ':', '2', '3', '.', '4', '5', ']'] ++
      ['x'])) = cleanLyricsCL (['a'] ++ ['x']) ∧
    cleanLyricsIX (['b'] ++ (['[', '0', '1', ':', '2', '3', ']'] ++ ['y'])) =
      cleanLyricsIX (['b'] ++ ['y']) := by
  constructor
  · exact C1_clean_removes_own_tag_forms.1 ['a'] _ ['x'] (by decide)
      (TagCL.ff (by decide) (by decide) (by decide) (by decide) (by decide)
        (by decide))
  · exact C1_clean_removes_own_tag_forms.2 ['b'] _ ['y'] (by decide)
      (TagIX.plain (by decide) (by decide) (by decide) (by decide))

/-- C2 (code bug): the write phase of `cleanExistingLyrics` performs a single
direct `writeFileSync` to the store file — the declared temp path is never
used, so no write-to-temp-then-swap happens — and mid-way through such an
in-place write the visible store contents are a strict prefix of the new
contents, which is neither the old store nor the new store. -/
theorem C2_rewrite_writes_store_directly :
    rewriteAllOps [⟨"新".toList, [], "new".toList⟩] =
      [FsOp.write FPath.store
        ("\x7b\"song_title\":\"新\",\"p_masters\":[],\"lyrics\":\"new\"\x7d\n".toList)] ∧
    midWrite (storeContent [⟨"新".toList, [], "new".toList⟩]) 1 ≠
      storeContent [⟨"旧".toList, [], "old".toList⟩] ∧
    midWrite (storeContent [⟨"新".toList, [], "new".toList⟩]) 1 ≠
      storeContent [⟨"新".toList, [], "new".toList⟩] := by
  refine ⟨by decide, by decide, by decide⟩

/-- C3 (counterexample): two tracks in the same page whose titles normalize
to the same key are both fetched and appended, because the new-song filter
is computed once per page; the claim's consequence "no two records appended
in one run share a normalized title" is false. -/
theorem C3_counterexample :
    (runPages ∅ [[⟨"夜的第七章 (Live)".toList, none, some ("la".toList)⟩,
      ⟨"夜的第七章".toList, none, some ("lo".toList)⟩]]).2.2 =
      [[⟨"夜的第七章 (Live)".toList, [], "la".toList⟩,
        ⟨"夜的第七章".toList, [], "lo".toList⟩]] ∧
    keyR ⟨"夜的第七章 (Live)".toList, [], "la".toList⟩ =
      keyR ⟨"夜的第七章".toList, [], "lo".toList⟩ ∧
    (⟨"夜的第七章 (Live)".toList, [], "la".toList⟩ : Record) ≠
      ⟨"夜的第七章".toList, [], "lo".toList⟩ := by
  refine ⟨by decide, by decide, by decide⟩

/-- C3 (amended): a track whose normalized key is already in the
existing-keys set when its page's new-song list is computed is skipped
without being fetched; every fetched track's key is in the key set from the
end of its page on; and consequently two records appended during different
pages of one run never share a normalized title.  (Two same-key tracks
inside one page are still both appended, as the counterexample shows.) -/
theorem C3_skip_check_is_per_page :
    (∀ (ex : Finset (List Char)) (page : List Track) (t : Track),
      t ∈ page → keyT t ∈ ex → t ∉ (processPage ex page).2.1) ∧
    (∀ (ex : Finset (List Char)) (page : List Track) (t : Track),
      t ∈ (processPage ex page).2.1 → keyT t ∈ (processPage ex page).1) ∧
    (∀ (ps : List (List Track)) (ex : Finset (List Char)) (i j : Nat)
      (pgi pgj : List Record) (r1 r2 : Record), i < j →
      ((runPages ex ps).2.2).get? i = some pgi →
      ((runPages ex ps).2.2).get? j = some pgj →
      r1 ∈ pgi → r2 ∈ pgj → keyR r1 ≠ keyR r2) := by
  refine ⟨?_, ?_, ?_⟩
  · intro ex page t ht hkey hmem
    rw [processPage_fetched] at hmem
    have := (List.mem_filter.mp hmem).2
    simp at this
    exact this hkey
  · intro ex page t ht
    exact processPage_fetched_key_in ht
  · intro ps ex i j pgi pgj r1 r2 hij hgi hgj h1 h2
    exact runPages_cross_page_distinct ps ex i j pgi pgj r1 r2 hij hgi hgj h1 h2

/-- C3 (witness): the amended theorem applied at concrete inputs: a track
whose key is already known is not fetched; a fetched track's key enters the
key set; two records appended in different pages have different keys. -/
theorem C3_witness :
    (⟨"甩葱歌".toList, none, some ("la".toList)⟩ : Track) ∉
      (processPage {"甩葱歌".toList} [⟨"甩葱歌".toList, none, some ("la".toList)⟩]).2.1 ∧
    keyT ⟨"甩葱歌".toList, none, some ("la".toList)⟩ ∈
      (processPage ∅ [⟨"甩葱歌".toList, none, some ("la".toList)⟩]).1 ∧
    keyR ⟨"甩葱歌".toList, [], "la".toList⟩ ≠ keyR ⟨"千年食谱颂".toList, [], "lo".toList⟩ := by
  refine ⟨?_, ?_, ?_⟩
  · exact C3_skip_check_is_per_page.1 _ _ _ (by simp) (by decide)
  · refine C3_skip_check_is_per_page.2.1 _ _ _ ?_
    have : (processPage ∅ [(⟨"甩葱歌".toList, none, some ("la".toList)⟩ : Track)]).2.1 =
        [⟨"甩葱歌".toList, none, some ("la".toList)⟩] := by rfl
    rw [this]
    simp
  · exact C3_skip_check_is_per_page.2.2
      [[⟨"甩葱歌".toList, none, some ("la".toList)⟩],
       [⟨"千年食谱颂".toList, none, some ("lo".toList)⟩]] ∅ 0 1
      [⟨"甩葱歌".toList, [], "la".toList⟩] [⟨"千年食谱颂".toList, [], "lo".toList⟩]
      _ _ (by omega) (by rfl) (by rfl) (by simp) (by simp)

/-- C4 (counterexample): the producer-list normalization keeps duplicates
and empty strings: on the once-nested input `["a", "a", ""]` the cleaned
list is `["a", "a", ""]`, which has a duplicate entry and an empty entry. -/
theorem C4_counterexample :
    cleanP_masters (some (JVal.arr
      [JVal.str ("a".toList), JVal.str ("a".toList), JVal.str []])) =
      ["a".toList, "a".toList, []] ∧
    ¬ (["a".toList, "a".toList, ([] : List Char)].Nodup) ∧
    ([] : List Char) ∈ ["a".toList, "a".toList, ([] : List Char)] := by
  refine ⟨by decide, by decide, by decide⟩

/-- C4 (amended): both producer-list normalizations produce a flat, ordered
list of strings — an array input is flattened one level, keeping exactly the
string leaves (to depth 2) in order, a string input is wrapped (except that
the ingestion boundary maps the empty string to `[]`), and null/absent
inputs map to `[]` — but duplicate entries and empty strings are kept. -/
theorem C4_p_masters_flat_ordered :
    (∀ l : List JVal, cleanP_masters (some (JVal.arr l)) = l.flatMap leafStrs) ∧
    (∀ l : List JVal, ingestPMasters (some (JVal.arr l)) = l.flatMap leafStrs) ∧
    (∀ s : List Char, cleanP_masters (some (JVal.str s)) = [s]) ∧
    (∀ s : List Char, s ≠ [] → ingestPMasters (some (JVal.str s)) = [s]) ∧
    ingestPMasters (some (JVal.str [])) = [] ∧
    cleanP_masters none = [] ∧ ingestPMasters none = [] := by
  refine ⟨cleanP_masters_arr, ingestPMasters_arr, fun s => rfl, ?_, rfl, rfl, rfl⟩
  intro s hs
  simp [ingestPMasters, hs]

/-- C4 (witness): the amended theorem applied at concrete inputs. -/
theorem C4_witness :
    cleanP_masters (some (JVal.arr [JVal.str ("a".toList),
      JVal.arr [JVal.str ("b".toList)], JVal.jnull])) =
      [JVal.str ("a".toList), JVal.arr [JVal.str ("b".toList)],
        JVal.jnull].flatMap leafStrs ∧
    ingestPMasters (some (JVal.str ("泠鸢".toList))) = ["泠鸢".toList] := by
  exact ⟨C4_p_masters_flat_ordered.1 _,
    C4_p_masters_flat_ordered.2.2.2.1 ("泠鸢".toList) (by decide)⟩

/-- C5: `cleanSongTitle` (the TitleNormalizer) is idempotent; it removes an
ASCII bracket pair (and its contents) occurring after bracket-free text with
no closer or line break inside, likewise a full-width pair; and
`normalize("勾指起誓 (Live)") = normalize("勾指起誓")`. -/
theorem C5_normalize_idempotent_strips_brackets :
    (∀ x : List Char, cleanSongTitle (cleanSongTitle x) = cleanSongTitle x) ∧
    (∀ u v w : List Char,
      (∀ c ∈ u, c ≠ '(' ∧ c ≠ '（') →
      (∀ c ∈ v, c ≠ ')' ∧ isLB c = false) →
      (∀ c ∈ w, c ≠ '(' ∧ c ≠ '（') →
      cleanSongTitle (u ++ '(' :: (v ++ ')' :: w)) = cleanSongTitle (u ++ w)) ∧
    (∀ u v w : List Char,
      (∀ c ∈ u, c ≠ '(' ∧ c ≠ '（') →
      (∀ c ∈ v, c ≠ '）' ∧ isLB c = false) →
      (∀ c ∈ w, c ≠ '(' ∧ c ≠ '（') →
      cleanSongTitle (u ++ '（' :: (v ++ '）' :: w)) = cleanSongTitle (u ++ w)) ∧
    cleanSongTitle ("勾指起誓 (Live)".toList) = cleanSongTitle ("勾指起誓".toList) := by
  refine ⟨cleanSongTitle_idempotent,
    fun u v w hu hv hw => cleanSongTitle_drop_pair hu hv hw,
    fun u v w hu hv hw => cleanSongTitle_drop_pair_fw hu hv hw,
    by decide⟩

/-- C5 (witness): the theorem applied at concrete inputs. -/
theorem C5_witness :
    cleanSongTitle (cleanSongTitle ("a((b".toList)) = cleanSongTitle ("a((b".toList) ∧
    cleanSongTitle ("初音未来 ".toList ++ '(' :: ("Cover".toList ++ ')' :: [])) =
      cleanSongTitle ("初音未来 ".toList ++ []) ∧
    cleanSongTitle ("雨眠 ".toList ++ '（' :: ("翻唱".toList ++ '）' :: "版".toList)) =
      cleanSongTitle ("雨眠 ".toList ++ "版".toList) := by
  refine ⟨C5_normalize_idempotent_strips_brackets.1 _, ?_, ?_⟩
  · exact C5_normalize_idempotent_strips_brackets.2.1 ("初音未来 ".toList)
      ("Cover".toList) [] (by decide) (by decide) (by decide)
  · exact C5_normalize_idempotent_strips_brackets.2.2.1 ("雨眠 ".toList)
      ("翻唱".toList) ("版".toList) (by decide) (by decide) (by decide)

/-- C6: a raw lyric input that is absent or empty, that cleans to an empty
string, or that still contains the instrumental sentinel is rejected by the
per-line filter of `processJsonlFile`: no record is produced and the
whole-file pass appends nothing for that line; the rejection is an ordinary
`none` result, not an error. -/
theorem C6_sentinel_and_empty_rejected :
    ∀ d : RawSong,
      (d.lyrics = none ∨ d.lyrics = some [] ∨
        trim (cleanLyricsCL (d.lyrics.getD [])) = [] ∨
        containsSub instrumentalStr (cleanLyricsCL (d.lyrics.getD [])) = true) →
      processSong d = none ∧
      ∀ pre post : List RawSong,
        processFile (pre ++ d :: post) = processFile (pre ++ post) := by
  intro d h
  have hd := processSong_rejects d h
  exact ⟨hd, fun pre post => processFile_skips hd pre post⟩

/-- C6 (witness): the sentinel-only lyric `"纯音乐，请欣赏"` is rejected and
contributes nothing to the output. -/
theorem C6_witness :
    processSong ⟨"某曲".toList, [], some ("纯音乐，请欣赏".toList)⟩ = none ∧
    processFile [⟨"某曲".toList, [], some ("纯音乐，请欣赏".toList)⟩] = [] := by
  have h := C6_sentinel_and_empty_rejected
    ⟨"某曲".toList, [], some ("纯音乐，请欣赏".toList)⟩
    (Or.inr (Or.inr (Or.inr (by decide))))
  refine ⟨h.1, ?_⟩
  have h2 := h.2 [] []
  simpa using h2

/-- C7: the MetadataExtractor (modelled from the spec, no implementation
under src/) partitions the lines into recognized credit lines and residual
lines: the residual is exactly the non-credit lines in order, residual and
removed credit lines are both order-preserving subsequences whose
concatenation is a permutation of the input, and a role that occurs on
several lines maps to the name of its last occurrence. -/
theorem C7_extract_partitions_last_wins :
    ∀ lines : List (List Char),
      (extract lines).1 = lines.filter (fun l => (creditOf l).isNone) ∧
      ((extract lines).1).Sublist lines ∧
      (lines.filter (fun l => (creditOf l).isSome)).Sublist lines ∧
      ((extract lines).1 ++ lines.filter (fun l => (creditOf l).isSome)).Perm lines ∧
      ∀ ro, mapLookup (extract lines).2 ro = lastCredit lines ro := by
  intro lines
  have hfst := extract_fst lines
  refine ⟨hfst, ?_, List.filter_sublist _, ?_, extract_snd_lookup lines⟩
  · rw [hfst]
    exact List.filter_sublist _
  · rw [hfst]
    have hcongr : lines.filter (fun l => (creditOf l).isSome) =
        lines.filter (fun l => !(creditOf l).isNone) := by
      apply List.filter_congr
      intro x _
      cases creditOf x <;> rfl
    rw [hcongr]
    exact List.filter_append_perm _ lines

/-- C8: loading a store whose lines are serialized records followed by one
unparsable nonblank line yields exactly those records and a malformed-line
count of 1 — the bad line is counted and skipped, the load is not aborted. -/
theorem C8_malformed_line_tolerated :
    ∀ (rs : List Record) (bad : List Char),
      '\n' ∉ bad → trim bad ≠ [] → parseRecord (trim bad) = none →
      loadAll (joinNl (rs.map serializeRecord ++ [bad]) ++ ['\n']) = (rs, 1) := by
  intro rs bad h1 h2 h3
  exact loadAll_with_bad rs bad h1 h2 h3

/-- C8 (witness): a store with 3 valid lines and 1 invalid line loads as 3
records with a malformed-line count of 1. -/
theorem C8_witness :
    loadAll (joinNl ([(⟨"歌一".toList, ["P1".toList], "词一".toList⟩ : Record),
        ⟨"歌二".toList, [], "词二\n词三".toList⟩,
        ⟨"歌三".toList, ["P2".toList, "P3".toList], "词四".toList⟩].map
          serializeRecord ++ ["oops not json".toList]) ++ ['\n']) =
      ([⟨"歌一".toList, ["P1".toList], "词一".toList⟩,
        ⟨"歌二".toList, [], "词二\n词三".toList⟩,
        ⟨"歌三".toList, ["P2".toList, "P3".toList], "词四".toList⟩], 1) := by
  exact C8_malformed_line_tolerated _ ("oops not json".toList)
    (by decide) (by decide) (by decide)

/-- C9: rewriting the store with `rewriteAll` (whose single write carries
`storeContent rs`) and loading it back returns the same records
field-for-field, lyrics included. -/
theorem C9_store_roundtrip :
    ∀ rs : List Record,
      rewriteAllOps rs = [FsOp.write FPath.store (storeContent rs)] ∧
      loadAll (storeContent rs) = (rs, 0) := by
  intro rs
  exact ⟨rfl, loadAll_storeContent rs⟩

/-- C10: in the first ingestor variant, every fetched track's normalized key
is in the final existing-songs set (the fetch outcome does not matter, so
rejected tracks are counted by the final report, whose size is that of the
initial keys united with all fetched keys), and a track with the same key as
one fetched in an earlier page is never fetched in a later page. -/
theorem C10_rejected_tracks_marked_seen :
    (∀ (ps : List (List Track)) (ex : Finset (List Char)) (j : Nat)
      (pg : List Track) (t : Track),
      ((runPages ex ps).2.1).get? j = some pg → t ∈ pg →
      keyT t ∈ (runPages ex ps).1) ∧
    (∀ (ps : List (List Track)) (ex : Finset (List Char)),
      (runPages ex ps).1 =
        ex ∪ ((((runPages ex ps).2.1).flatten).map keyT).toFinset) ∧
    (∀ (ps : List (List Track)) (ex : Finset (List Char)) (i j : Nat)
      (pgi pgj : List Track) (t t' : Track), i < j →
      ((runPages ex ps).2.1).get? i = some pgi →
      ((runPages ex ps).2.1).get? j = some pgj →
      t ∈ pgi → keyT t' = keyT t → t' ∉ pgj) := by
  refine ⟨?_, runPages_final, ?_⟩
  · intro ps ex j pg t hg ht
    rw [runPages_final]
    apply Finset.mem_union_right
    rw [List.mem_toFinset]
    apply List.mem_map_of_mem
    rw [List.mem_flatten]
    exact ⟨pg, List.get?_mem hg, ht⟩
  · intro ps ex i j pgi pgj t t' hij hgi hgj h1 hkey
    exact runPages_no_refetch ps ex i j pgi pgj t t' hij hgi hgj h1 hkey

/-- C10 (witness): a run over two pages where the first page's only track
fails its lyric fetch: its key is nevertheless in the final set, the final
set is the union of the initial keys and all fetched keys, and the same-key
track of the second page is not fetched. -/
theorem C10_witness :
    keyT ⟨"权御天下 (Live)".toList, none, none⟩ ∈
      (runPages ∅ [[⟨"权御天下 (Live)".toList, none, none⟩],
        [⟨"权御天下".toList, none, some ("hi".toList)⟩]]).1 ∧
    (runPages ∅ [[⟨"权御天下 (Live)".toList, none, none⟩],
        [⟨"权御天下".toList, none, some ("hi".toList)⟩]]).1 =
      ∅ ∪ ((((runPages ∅ [[⟨"权御天下 (Live)".toList, none, none⟩],
        [⟨"权御天下".toList, none, some ("hi".toList)⟩]]).2.1).flatten).map
          keyT).toFinset ∧
    (⟨"权御天下".toList, none, some ("hi".toList)⟩ : Track) ∉ ([] : List Track) := by
  refine ⟨?_, ?_, ?_⟩
  · exact C10_rejected_tracks_marked_seen.1
      [[⟨"权御天下 (Live)".toList, none, none⟩],
       [⟨"权御天下".toList, none, some ("hi".toList)⟩]] ∅ 0
      [⟨"权御天下 (Live)".toList, none, none⟩] _ (by rfl) (by simp)
  · exact C10_rejected_tracks_marked_seen.2.1
      [[⟨"权御天下 (Live)".toList, none, none⟩],
       [⟨"权御天下".toList, none, some ("hi".toList)⟩]] ∅
  · exact C10_rejected_tracks_marked_seen.2.2
      [[⟨"权御天下 (Live)".toList, none, none⟩],
       [⟨"权御天下".toList, none, some ("hi".toList)⟩]] ∅ 0 1
      [⟨"权御天下 (Live)".toList, none, none⟩] []
      (⟨"权御天下 (Live)".toList, none, none⟩ : Track)
      (⟨"权御天下".toList, none, some ("hi".toList)⟩ : Track)
      (by omega) (by rfl) (by rfl) (by simp) (by decide)

end LtyAgent
